import Mathlib

/-!
Verification of the continuous-contract (K-line) builder and the
signal-matching / daily mark-to-market PnL pipeline of the jupiter
repository.

The continuous builder is a shallow embedding of
`src/data/merge/exchange/continuous_kline.py` (`ContinuousKline`):
contract identification (`_identify_contracts`), roll-point detection
(volume / open-interest / time / fixed strategies), price adjustment
(difference / ratio / backward / forward / none) and the
first-writer-wins merge of contract segments (`generate_continuous`).

The position tracker is a shallow embedding of
`src/match/match_signals.py` (settlement-price variant) and
`src/match/match_major_with_signal.py` (close-price variant).

Dates are day numbers (integers); pandas `datetime` arithmetic with
`timedelta(days=k)` becomes integer subtraction, and the approximated
expiry (`_get_month_end`) is computed with a proleptic Gregorian
day-number function.  Prices and amounts are rationals, mirroring the
scripts' float arithmetic.  A missing value (`NaN` from a failed left
merge) is `Option.none`, and the pandas `.astype(int)` cast, which
raises on non-finite input, is a function into `Option`.
-/
/-! ### Generic list helpers (pandas `unique`, `Series.min`) -/
/-- First-occurrence deduplication, as `pandas.Series.unique`:
`seen` accumulates the values already emitted. -/
def uniqueFirstAux {α : Type} [DecidableEq α] : List α → List α → List α
  | _, [] => []
  | seen, x :: xs =>
    if x ∈ seen then uniqueFirstAux seen xs
    else x :: uniqueFirstAux (x :: seen) xs

/-- First-occurrence order deduplication (`pandas.Series.unique`). -/
def uniqueFirst {α : Type} [DecidableEq α] (l : List α) : List α :=
  uniqueFirstAux [] l

/-- `pandas.Series.min` over a list of dates. -/
def series_min : List Int → Option Int
  | [] => Option.none
  | x :: xs =>
    match series_min xs with
    | Option.none => some x
    | some y => some (min x y)

/-! ### Python string ordering and numeric helpers -/
/-- Python `<` on strings (lexicographic on code points), used by
`list.sort(key=extract_date)`; here as the reflexive `≤` version fed to a
stable sort, which produces exactly Python's stable ascending sort. -/
def strLe : List Char → List Char → Bool
  | [], _ => true
  | _ :: _, [] => false
  | a :: as, b :: bs => if a = b then strLe as bs else decide (a < b)

/-- Python `int()` of a string of decimal digits. -/
def natOfDigits (l : List Char) : Nat :=
  l.foldl (fun acc c => acc * 10 + (c.toNat - 48)) 0

/-- Python `str.upper()` (ASCII), avoiding `String.mapAux`. -/
def str_upper (s : String) : String :=
  String.mk (s.data.map Char.toUpper)

/-- Python `str.lower()` (ASCII). -/
def str_lower (s : String) : String :=
  String.mk (s.data.map Char.toLower)

/-- Mathematical floor of a rational, computed on the reduced fraction
(`numpy.floor` composed with an exact int cast). -/
def pyfloor (q : ℚ) : Int := q.num / (q.den : Int)

/-- The pandas `.astype(int)` cast of a finite float: truncation toward
zero.  (On `NaN`/`inf` pandas raises instead; callers model that case with
`Option` before reaching this function.) -/
def astype_int (q : ℚ) : Int :=
  if 0 ≤ q then pyfloor q else -(pyfloor (-q))

/-! ### Calendar: day numbers for `datetime` and `_get_month_end` -/
/-- Day number of a proleptic Gregorian civil date (days since 1970-01-01),
standard era/year-of-era computation; all divisions act on non-negative
operands for the years this repository handles. -/
def days_from_civil (y m d : Int) : Int :=
  let y2 := if m ≤ 2 then y - 1 else y
  let era := (if 0 ≤ y2 then y2 else y2 - 399) / 400
  let yoe := y2 - era * 400
  let mp := (m + 9) % 12
  let doy := (153 * mp + 2) / 5 + d - 1
  let doe := yoe * 365 + yoe / 4 - yoe / 100 + doy
  era * 146097 + doe - 719468

/-- `ContinuousKline._get_month_end`: the day number of the last day of
the given month (`datetime(year, month+1, 1) - timedelta(days=1)`, with
the December wrap-around). -/
def get_month_end (year month : Int) : Int :=
  if month = 12 then days_from_civil (year + 1) 1 1 - 1
  else days_from_civil year (month + 1) 1 - 1

/-! ### Contract symbol parsing

`_identify_contracts` and friends use the regular expression
`([A-Za-z]+)(\d{2,4})(\d{2})?` with `re.search` (leftmost match).  Because
the optional third group never forces backtracking, `re.search` on this
pattern is: at the first position starting a run of ASCII letters followed
by at least two ASCII digits, take the letter run, then up to four digits,
then two more digits if at least two remain. -/
/-- Try the pattern anchored at the head of the character list. -/
def match_contract_at (cs : List Char) :
    Option (List Char × List Char × Option (List Char)) :=
  let alpha := cs.takeWhile Char.isAlpha
  if alpha = [] then Option.none
  else
    let rest := cs.drop alpha.length
    let digits := rest.takeWhile Char.isDigit
    if digits.length < 2 then Option.none
    else
      let y := digits.take 4
      let rest2 := digits.drop 4
      let m := if 2 ≤ rest2.length then some (rest2.take 2) else Option.none
      some (alpha, y, m)

/-- `re.search` for the contract pattern: leftmost match. -/
def contract_search : List Char → Option (List Char × List Char × Option (List Char))
  | [] => Option.none
  | c :: cs =>
    match match_contract_at (c :: cs) with
    | some r => some r
    | Option.none => contract_search cs

/-- The shared normalization step `if month is None: year, month = year[:2], year[2:]`. -/
def parse_year_month (year : List Char) (month : Option (List Char)) :
    List Char × List Char :=
  match month with
  | some m => (year, m)
  | Option.none => (year.take 2, year.drop 2)

/-- `extract_date` inside `_identify_contracts`: the canonical `YYYYMM`
sort key of a contract symbol, `"999999"` when the pattern fails. -/
def extract_date (contract : String) : List Char :=
  match contract_search contract.data with
  | some r =>
    let ym := parse_year_month r.2.1 r.2.2
    let y := if ym.1.length = 2 then '2' :: '0' :: ym.1 else ym.1
    y ++ ym.2
  | Option.none => ['9', '9', '9', '9', '9', '9']

/-- `extract_month` inside `generate_continuous` (contract-months filter). -/
def extract_month (contract : String) : Nat :=
  match contract_search contract.data with
  | some r => natOfDigits (parse_year_month r.2.1 r.2.2).2
  | Option.none => 0

/-- `ContinuousKline._extract_expiry_date`: approximate expiry as the last
day of the contract's expiry month; `none` when the pattern fails. -/
def extract_expiry_date (contract : String) : Option Int :=
  match contract_search contract.data with
  | some r =>
    let ym := parse_year_month r.2.1 r.2.2
    let y := if ym.1.length = 2 then '2' :: '0' :: ym.1 else ym.1
    some (get_month_end (Int.ofNat (natOfDigits y)) (Int.ofNat (natOfDigits ym.2)))
  | Option.none => Option.none

/-! ### The bar table and the continuous series -/
/-- One input bar of a product's merged table, after the script's
column-name resolution: `date`, the contract column, the four resolved
OHLC price columns and the resolved volume / open-interest columns. -/
structure Bar where
  date : Int
  contract : String
  open_ : ℚ
  high : ℚ
  low : ℚ
  close : ℚ
  volume : Int
  open_interest : Int
deriving DecidableEq, Repr

/-- One row of the continuous series: the `adj_*` price columns (renamed
to `open/high/low/close` on output), the contract tag and the raw
volume / open-interest carried over from the active contract. -/
structure ContRow where
  date : Int
  contract : String
  open_ : ℚ
  high : ℚ
  low : ℚ
  close : ℚ
  volume : Int
  open_interest : Int
deriving DecidableEq, Repr

/-- Date order on bars, for `contract_df.sort_values("date")`. -/
def barLe (a b : Bar) : Prop := a.date ≤ b.date

instance : DecidableRel barLe := fun a b => inferInstanceAs (Decidable (a.date ≤ b.date))

instance : IsTotal Bar barLe := ⟨fun a b => Int.le_total a.date b.date⟩

instance : IsTrans Bar barLe := ⟨fun _ _ _ h1 h2 => le_trans h1 h2⟩

/-- Date order on continuous rows, for the final `sort_values("date")`. -/
def rowLe (a b : ContRow) : Prop := a.date ≤ b.date

instance : DecidableRel rowLe := fun a b => inferInstanceAs (Decidable (a.date ≤ b.date))

instance : IsTotal ContRow rowLe := ⟨fun a b => Int.le_total a.date b.date⟩

instance : IsTrans ContRow rowLe := ⟨fun _ _ _ h1 h2 => le_trans h1 h2⟩

/-- Sort key order on contract symbols (`contracts.sort(key=extract_date)`). -/
def contractKeyLe (a b : String) : Prop := strLe (extract_date a) (extract_date b) = true

instance : DecidableRel contractKeyLe := fun a b =>
  inferInstanceAs (Decidable (strLe (extract_date a) (extract_date b) = true))

/-- `df[df[contract_col] == contract].sort_values("date")`. -/
def contractData (df : List Bar) (c : String) : List Bar :=
  List.insertionSort barLe (df.filter (fun b => b.contract = c))

/-- `_identify_contracts`: unique contract values in first-occurrence
order, stably sorted ascending by the `extract_date` key. -/
def identify_contracts (df : List Bar) : List String :=
  List.insertionSort contractKeyLe (uniqueFirst (df.map (fun b => b.contract)))

/-! ### Roll-point detection -/
/-- Volume roll rule: the inner merge of `(date, volume)` of the current
and next contract, restricted to rows with `next_vol > curr_vol`, then
`["date"].min()` — `none` when either frame is empty or no such date. -/
def volume_roll_date (cdf ndf : List Bar) : Option Int :=
  if cdf = [] ∨ ndf = [] then Option.none
  else series_min (cdf.flatMap (fun r =>
    (ndf.filter (fun s => s.date = r.date)).filterMap (fun s =>
      if r.volume < s.volume then some r.date else Option.none)))

/-- Open-interest roll rule, same merge on `open_interest`. -/
def oi_roll_date (cdf ndf : List Bar) : Option Int :=
  if cdf = [] ∨ ndf = [] then Option.none
  else series_min (cdf.flatMap (fun r =>
    (ndf.filter (fun s => s.date = r.date)).filterMap (fun s =>
      if r.open_interest < s.open_interest then some r.date else Option.none)))

/-- The four roll strategies accepted by `generate_continuous`. -/
inductive RollStrategy where
  | volume
  | oi
  | time
  | fixed
deriving DecidableEq, Repr

/-- The five price-adjustment methods accepted by `generate_continuous`. -/
inductive AdjustMethod where
  | backward
  | forward
  | ratio
  | difference
  | none
deriving DecidableEq, Repr

/-- The per-contract rollover date of `generate_continuous`:
`volume`/`oi` require a next contract and use the merge rule, `time`
rolls `dominant_days` before the approximated expiry (also for the last
contract), `fixed` requires a next contract and rolls `rollover_days`
before the month end parsed from the current contract symbol. -/
def rollover_date (df : List Bar) (strategy : RollStrategy) (contract : String)
    (next_contract : Option String) (dominant_days rollover_days : Int) : Option Int :=
  match strategy, next_contract with
  | RollStrategy.volume, some nc =>
    volume_roll_date (contractData df contract) (df.filter (fun b => b.contract = nc))
  | RollStrategy.oi, some nc =>
    oi_roll_date (contractData df contract) (df.filter (fun b => b.contract = nc))
  | RollStrategy.time, _ =>
    (extract_expiry_date contract).map (fun e => e - dominant_days)
  | RollStrategy.fixed, some _ =>
    match contract_search contract.data with
    | some r =>
      let ym := parse_year_month r.2.1 r.2.2
      let y := if ym.1.length = 2 then '2' :: '0' :: ym.1 else ym.1
      some (get_month_end (Int.ofNat (natOfDigits y)) (Int.ofNat (natOfDigits ym.2))
        - rollover_days)
    | Option.none => Option.none
  | _, _ => Option.none

/-! ### Price adjustment and segment assembly -/
/-- Mutable loop state of `generate_continuous`: the continuous frame
built so far plus the two persistent adjustment accumulators
(`adjustment_factor = 0`, `adjustment_ratio = 1.0` initially). -/
structure GCState where
  continuous : List ContRow
  adjustment_factor : ℚ
  adjustment_ratio : ℚ
deriving DecidableEq, Repr

/-- The overlap date:
`continuous_df[continuous_df["date"].isin(contract_df["date"])]["date"].min()`. -/
def overlap_date (continuous : List ContRow) (cdf : List Bar) : Option Int :=
  series_min ((continuous.filter (fun r => cdf.any (fun s => s.date = r.date))).map
    (fun r => r.date))

/-- `continuous_df.loc[continuous_df["date"] == overlap_date, "adj_close"].iloc[0]`. -/
def adj_close_at (continuous : List ContRow) (d : Int) : ℚ :=
  ((continuous.find? (fun r => r.date = d)).map (fun r => r.close)).getD 0

/-- `contract_df.loc[contract_df["date"] == overlap_date, close_col].iloc[0]`. -/
def raw_close_at (cdf : List Bar) (d : Int) : ℚ :=
  ((cdf.find? (fun r => r.date = d)).map (fun r => r.close)).getD 0

/-- Additive adjustment of one bar (`adj_x = x + a`), tagging the contract. -/
def applyAdd (c : String) (a : ℚ) (b : Bar) : ContRow :=
  ⟨b.date, c, b.open_ + a, b.high + a, b.low + a, b.close + a, b.volume, b.open_interest⟩

/-- Multiplicative adjustment of one bar (`adj_x = x * a`). -/
def applyMul (c : String) (a : ℚ) (b : Bar) : ContRow :=
  ⟨b.date, c, b.open_ * a, b.high * a, b.low * a, b.close * a, b.volume, b.open_interest⟩

/-- The unadjusted copy (`adj_x = x`) used for the first contract and for
`adjust_method="none"`. -/
def applyRaw (c : String) (b : Bar) : ContRow :=
  ⟨b.date, c, b.open_, b.high, b.low, b.close, b.volume, b.open_interest⟩

/-- `contract_df = contract_df[contract_df["date"] <= rollover_date]`. -/
def rollover_filter (rollover : Option Int) (rows : List ContRow) : List ContRow :=
  match rollover with
  | some d => rows.filter (fun r => r.date ≤ d)
  | Option.none => rows

/-- The `adjustment_factor` update: recomputed at the overlap date only
for `difference`, otherwise (no overlap, or another method) unchanged. -/
def updated_factor (df : List Bar) (adjust : AdjustMethod) (c : String) (st : GCState) : ℚ :=
  let cdf := contractData df c
  match overlap_date st.continuous cdf with
  | some d =>
    if adjust = AdjustMethod.difference
    then adj_close_at st.continuous d - raw_close_at cdf d
    else st.adjustment_factor
  | Option.none => st.adjustment_factor

/-- The `adjustment_ratio` update: recomputed at the overlap date only for
`ratio` and only when the new contract's raw close there is nonzero
(`if curr_price != 0`), otherwise unchanged. -/
def updated_ratio (df : List Bar) (adjust : AdjustMethod) (c : String) (st : GCState) : ℚ :=
  let cdf := contractData df c
  match overlap_date st.continuous cdf with
  | some d =>
    if adjust = AdjustMethod.ratio ∧ raw_close_at cdf d ≠ 0
    then adj_close_at st.continuous d / raw_close_at cdf d
    else st.adjustment_ratio
  | Option.none => st.adjustment_ratio

/-- The adjusted and rollover-filtered segment a non-first contract
contributes under `difference`/`ratio`/`backward`/`forward`.  The
`backward`/`forward` arm recomputes a local additive `adjustment` from
the overlap date, starting from `0` (not from the persistent factor). -/
def adjusted_segment (df : List Bar) (strategy : RollStrategy) (adjust : AdjustMethod)
    (dominant_days rollover_days : Int) (c : String) (next_contract : Option String)
    (st : GCState) : List ContRow :=
  let cdf := contractData df c
  let adjRows :=
    match adjust with
    | AdjustMethod.difference => cdf.map (applyAdd c (updated_factor df adjust c st))
    | AdjustMethod.ratio => cdf.map (applyMul c (updated_ratio df adjust c st))
    | _ =>
      cdf.map (applyAdd c
        (match overlap_date st.continuous cdf with
         | some d => adj_close_at st.continuous d - raw_close_at cdf d
         | Option.none => 0))
  rollover_filter (rollover_date df strategy c next_contract dominant_days rollover_days)
    adjRows

/-- The unadjusted, rollover-filtered segment of the first contract or of
`adjust_method="none"`. -/
def raw_segment (df : List Bar) (strategy : RollStrategy)
    (dominant_days rollover_days : Int) (c : String) (next_contract : Option String) :
    List ContRow :=
  rollover_filter (rollover_date df strategy c next_contract dominant_days rollover_days)
    ((contractData df c).map (applyRaw c))

/-- The duplicate-avoiding concatenation of a new contract segment onto
the continuous frame: dates already present are never re-added. -/
def appendRows (continuous rows : List ContRow) : List ContRow :=
  if continuous = [] then rows
  else continuous ++ rows.filter (fun r => r.date ∉ continuous.map (fun s => s.date))

/-- One iteration of the contract loop of `generate_continuous`
(index `i`, current contract `c`).  The inner `continue` of the
adjustment block (empty continuous frame at `i > 0`) drops the contract
entirely. -/
def processContract (df : List Bar) (strategy : RollStrategy) (adjust : AdjustMethod)
    (dominant_days rollover_days : Int) (i : Nat) (c : String)
    (next_contract : Option String) (st : GCState) : GCState :=
  if contractData df c = [] then st
  else if 0 < i ∧ adjust ∈ [AdjustMethod.backward, AdjustMethod.forward,
      AdjustMethod.ratio, AdjustMethod.difference] then
    if st.continuous = [] then st
    else
      { continuous := appendRows st.continuous
          (adjusted_segment df strategy adjust dominant_days rollover_days c
            next_contract st),
        adjustment_factor := updated_factor df adjust c st,
        adjustment_ratio := updated_ratio df adjust c st }
  else
    { st with
      continuous := appendRows st.continuous
        (raw_segment df strategy dominant_days rollover_days c next_contract) }

/-- The contract loop: `next_contract = contracts[i+1]` when it exists. -/
def processContracts (df : List Bar) (strategy : RollStrategy) (adjust : AdjustMethod)
    (dominant_days rollover_days : Int) : Nat → List String → GCState → GCState
  | _, [], st => st
  | i, c :: rest, st =>
    processContracts df strategy adjust dominant_days rollover_days (i + 1) rest
      (processContract df strategy adjust dominant_days rollover_days i c rest.head? st)

/-- `ContinuousKline.generate_continuous` after data loading and column
resolution: identify and optionally month-filter the contract list, run
the roll/adjust/append loop, and sort the result ascending by date (the
`adj_*` columns are then renamed to `open/high/low/close`, which this
embedding's `ContRow` already does). -/
def generate_continuous (df : List Bar) (strategy : RollStrategy) (adjust : AdjustMethod)
    (contract_months : Option (List Nat)) (dominant_days rollover_days : Int) :
    List ContRow :=
  let contracts := identify_contracts df
  let contracts :=
    match contract_months with
    | some ms => if ms = [] then contracts else contracts.filter (fun c => extract_month c ∈ ms)
    | Option.none => contracts
  let st := processContracts df strategy adjust dominant_days rollover_days 0 contracts
    ⟨[], 0, 1⟩
  List.insertionSort rowLe st.continuous

/-! ### Signal matching and daily PnL (`match_signals.py`) -/
/-- One row of `all_majors.csv` (the majors/continuous table): the day's
dominant contract for some product, with close and settlement prices. -/
structure MajorRow where
  date : Int
  contract : String
  close : ℚ
  settlement : ℚ
deriving DecidableEq, Repr

/-- One row of `strategy_result.csv`. -/
structure Signal where
  date : Int
  product : String
  position : String
  amount : ℚ
deriving DecidableEq, Repr

/-- `extract_product`: `re.match(r'([a-zA-Z]+)', contract)` then
`.group(1).upper()`, `None` when the symbol has no alphabetic prefix. -/
def extract_product (contract : String) : Option String :=
  let alpha := contract.data.takeWhile Char.isAlpha
  if alpha = [] then Option.none else some (String.mk (alpha.map Char.toUpper))

/-- One row of `open_df` after the left merge: the (upper-cased) signal
joined with its majors row when one exists (`NaN`-filled otherwise). -/
structure OpenRow where
  date : Int
  product : String
  position : String
  amount : ℚ
  matched : Option MajorRow
deriving DecidableEq, Repr

/-- `pd.merge(signals_df, main_contracts_df[...], on=['date','product'],
how='left')`: one output row per matching majors row, one `NaN` row when
there is no match. -/
def left_merge_open (signals : List Signal) (majors : List MajorRow) : List OpenRow :=
  signals.flatMap (fun s =>
    let p := str_upper s.product
    let ms := majors.filter (fun m => m.date = s.date ∧ extract_product m.contract = some p)
    match ms with
    | [] => [⟨s.date, p, s.position, s.amount, Option.none⟩]
    | _ => ms.map (fun m => ⟨s.date, p, s.position, s.amount, some m⟩))

/-- `main_contracts_df['date'].drop_duplicates().sort_values()`:
the global sorted deduplicated trading-day calendar. -/
def trading_days (majors : List MajorRow) : List Int :=
  List.insertionSort (fun a b : Int => a ≤ b) (uniqueFirst (majors.map (fun m => m.date)))

/-- `trading_days[trading_days == open_date].index[0]`: position of the
first occurrence of a date in the calendar. -/
def first_index_of (d : Int) : List Int → Option Nat
  | [] => Option.none
  | x :: xs => if x = d then some 0 else (first_index_of d xs).map (fun k => k + 1)

/-- `get_close_date`: the trading day 10 sessions after `open_date` when
the open date occurs in the calendar and `idx[0] + 10 < len(trading_days)`;
otherwise `pd.NaT`. -/
def get_close_date (td : List Int) (open_date : Int) : Option Int :=
  match first_index_of open_date td with
  | some k => if k + 10 < td.length then td.get? (k + 10) else Option.none
  | Option.none => Option.none

/-- A fully resolved position row of `open_df` (every later column
computed).  `close_date`, `close_settlement`, `profit_per_unit` and
`total_profit` stay `Option` because an unresolved close date propagates
`NaT`/`NaN` through the remaining columns without raising. -/
structure ResRow where
  date : Int
  product : String
  position : String
  amount : ℚ
  open_contract : String
  open_price : ℚ
  open_settlement : ℚ
  open_quantity : Int
  close_date : Option Int
  close_settlement : Option ℚ
  profit_per_unit : Option ℚ
  total_profit : Option ℚ
deriving DecidableEq, Repr

/-- Resolution of one `open_df` row.  The quantity cast
`(amount / open_price).astype(int)` raises (whole batch, modelled as
`Option.none`) when `open_price` is `NaN` (no matched majors row) or `0`
(the float division produces `inf`/`NaN`). -/
def resolve_row (majors : List MajorRow) (td : List Int) (r : OpenRow) : Option ResRow :=
  match r.matched with
  | Option.none => Option.none
  | some m =>
    if m.close = 0 then Option.none
    else
      let q := astype_int (r.amount / m.close)
      let cd := get_close_date td r.date
      let cs := cd.bind (fun c =>
        ((majors.find? (fun mm => mm.date = c ∧ extract_product mm.contract = some r.product)).map
          (fun mm => mm.settlement)))
      let ppu := cs.map (fun s =>
        if str_lower r.position = "long" then s - m.close else m.close - s)
      some ⟨r.date, r.product, r.position, r.amount, m.contract, m.close, m.settlement,
        q, cd, cs, ppu, ppu.map (fun x => x * (q : ℚ))⟩

/-- The column-wise quantity cast over the whole frame: any single
non-finite value aborts the run. -/
def resolve_all (majors : List MajorRow) (td : List Int) :
    List OpenRow → Option (List ResRow)
  | [] => some []
  | r :: rs =>
    match resolve_row majors td r with
    | Option.none => Option.none
    | some x =>
      match resolve_all majors td rs with
      | Option.none => Option.none
      | some xs => some (x :: xs)

/-- `trading_days[(trading_days >= open) & (trading_days <= close)]`. -/
def hold_period (td : List Int) (open_date close_date : Int) : List Int :=
  td.filter (fun d => open_date ≤ d ∧ d ≤ close_date)

/-- One row of `daily_pnl_records`. -/
structure DailyRec where
  open_date : Int
  date : Int
  product : String
  position : String
  open_contract : String
  open_price : ℚ
  open_quantity : Int
  daily_settlement : ℚ
  daily_pnl : ℚ
deriving DecidableEq, Repr

/-- The inner loop of the daily-PnL pass for one position: positions with
unresolved `close_date` are skipped entirely; each holding day with no
matching settlement row is skipped (`continue`); otherwise one record is
emitted with the signed daily PnL against the open price. -/
def daily_records_for (majors : List MajorRow) (td : List Int) (r : ResRow) :
    List DailyRec :=
  match r.close_date with
  | Option.none => []
  | some cd =>
    (hold_period td r.date cd).filterMap (fun day =>
      match (majors.filter (fun m => m.date = day ∧
          extract_product m.contract = some r.product)).map (fun m => m.settlement) with
      | [] => Option.none
      | s :: _ =>
        some ⟨r.date, day, r.product, r.position, r.open_contract, r.open_price,
          r.open_quantity, s,
          if str_lower r.position = "long"
          then (s - r.open_price) * (r.open_quantity : ℚ)
          else (r.open_price - s) * (r.open_quantity : ℚ)⟩)

/-- The whole `match_signals.py` run: left-merge the signals, cast the
quantity column (abort on any unmatched or zero open price), then emit
the matched-signals frame and the daily PnL ledger. -/
def match_signals_run (signals : List Signal) (majors : List MajorRow) :
    Option (List ResRow × List DailyRec) :=
  let td := trading_days majors
  (resolve_all majors td (left_merge_open signals majors)).map
    (fun rows => (rows, rows.flatMap (daily_records_for majors td)))

/-! ### The close-price variant (`match_major_with_signal.py`) -/
/-- One output row of `matched_signals_with_profit.csv`. -/
structure MMRow where
  date : Int
  product : String
  position : String
  amount : ℚ
  open_contract : String
  open_price : ℚ
  open_quantity : Int
  close_date : Int
  close_price : Option ℚ
  profit_per_unit : Option ℚ
  total_profit : Option ℚ
deriving DecidableEq, Repr

/-- Row resolution of the close-price variant: quantity is
`np.floor(amount / open_price).astype(int)` (aborts on `NaN`/`inf` as
above), `close_date` is `date + pd.Timedelta(days=10)` — ten *calendar*
days — and the close price is looked up by exact `(close_date, product)`
match in the majors table. -/
def mm_resolve_row (majors : List MajorRow) (r : OpenRow) : Option MMRow :=
  match r.matched with
  | Option.none => Option.none
  | some m =>
    if m.close = 0 then Option.none
    else
      let q := pyfloor (r.amount / m.close)
      let cd := r.date + 10
      let cp := (majors.find? (fun mm => mm.date = cd ∧
        extract_product mm.contract = some r.product)).map (fun mm => mm.close)
      let ppu := cp.map (fun c =>
        if str_lower r.position = "long" then c - m.close else m.close - c)
      some ⟨r.date, r.product, r.position, r.amount, m.contract, m.close, q, cd, cp,
        ppu, ppu.map (fun x => x * (q : ℚ))⟩

/-- The column-wise cast of the close-price variant. -/
def mm_resolve_all (majors : List MajorRow) : List OpenRow → Option (List MMRow)
  | [] => some []
  | r :: rs =>
    match mm_resolve_row majors r with
    | Option.none => Option.none
    | some x =>
      match mm_resolve_all majors rs with
      | Option.none => Option.none
      | some xs => some (x :: xs)

/-- The whole `match_major_with_signal.py` run. -/
def match_major_run (signals : List Signal) (majors : List MajorRow) :
    Option (List MMRow) :=
  mm_resolve_all majors (left_merge_open signals majors)

/-! ### Concrete inputs used by witnesses and counterexamples -/
/-- A five-day majors table (dates 1..5): a calendar with fewer than ten
sessions after day 1. -/
def c4_majors : List MajorRow :=
  [⟨1, "X2101", 10, 10⟩, ⟨2, "X2101", 10, 10⟩, ⟨3, "X2101", 10, 10⟩,
   ⟨4, "X2101", 10, 10⟩, ⟨5, "X2101", 10, 10⟩]

/-- A twelve-day majors table (dates 1..12): day 1 has eleven later
sessions, so its close date resolves to day 11. -/
def c4_long_majors : List MajorRow :=
  [⟨1, "X2101", 10, 10⟩, ⟨2, "X2101", 10, 10⟩, ⟨3, "X2101", 10, 10⟩,
   ⟨4, "X2101", 10, 10⟩, ⟨5, "X2101", 10, 10⟩, ⟨6, "X2101", 10, 10⟩,
   ⟨7, "X2101", 10, 10⟩, ⟨8, "X2101", 10, 10⟩, ⟨9, "X2101", 10, 10⟩,
   ⟨10, "X2101", 10, 10⟩, ⟨11, "X2101", 10, 10⟩, ⟨12, "X2101", 10, 10⟩]

/-- A one-row majors table for product `X` on day 0. -/
def c6_majors : List MajorRow := [⟨0, "X2101", 1000, 995⟩]

/-- A signal on day 5, a date with no majors row at all. -/
def c6_bad_signal : Signal := ⟨5, "y", "long", 100000⟩

/-- A signal on day 0 that matches the majors row. -/
def c6_good_signal : Signal := ⟨0, "x", "long", 100000⟩

/-- Three contracts of product `a`: `a2101` (days 1,2), `a2102`
(days 2,3) overlapping it, and `a2103` (days 5,6) separated by a data
gap from everything before it.  All volumes are equal, so the volume
rule never fires and every contract contributes all its days. -/
def c8_df : List Bar :=
  [⟨1, "a2101", 100, 100, 100, 100, 10, 0⟩,
   ⟨2, "a2101", 110, 110, 110, 110, 10, 0⟩,
   ⟨2, "a2102", 90, 90, 90, 90, 10, 0⟩,
   ⟨3, "a2102", 95, 95, 95, 95, 10, 0⟩,
   ⟨5, "a2103", 50, 50, 50, 50, 10, 0⟩,
   ⟨6, "a2103", 55, 55, 55, 55, 10, 0⟩]

/-- A single contract `x2101` with bars on 2021-01-20 (day 18647) and
2021-01-29 (day 18656); its approximated expiry is 2021-01-31
(day 18658). -/
def c9_df : List Bar :=
  [⟨18647, "x2101", 7, 7, 7, 7, 1, 1⟩, ⟨18656, "x2101", 8, 8, 8, 8, 1, 1⟩]

/-- The spec's volume-roll scenario: `X2101` with volume 100 on day 1 and
80 on day 2, `X2102` with volume 50 on day 1 and 120 on day 2. -/
def c2_df : List Bar :=
  [⟨1, "X2101", 5, 5, 5, 5, 100, 0⟩, ⟨2, "X2101", 5, 5, 5, 5, 80, 0⟩,
   ⟨1, "X2102", 5, 5, 5, 5, 50, 0⟩, ⟨2, "X2102", 5, 5, 5, 5, 120, 0⟩]

/-- Two overlapping contracts of product `b` for the duplicate-date
invariant witness. -/
def c1_df : List Bar :=
  [⟨1, "b2101", 9, 9, 9, 9, 4, 4⟩, ⟨2, "b2101", 8, 8, 8, 8, 4, 4⟩,
   ⟨2, "b2102", 7, 7, 7, 7, 4, 4⟩, ⟨3, "b2102", 6, 6, 6, 6, 4, 4⟩]

/-- A one-row continuous state with nonzero accumulators, used at a
roll boundary with no overlap. -/
def c8_state : GCState := ⟨[⟨1, "z2101", 3, 3, 3, 3, 2, 2⟩], 7, 2⟩

/-- A contract whose only day (5) is absent from `c8_state`'s frame. -/
def c8_gap_df : List Bar := [⟨5, "z2102", 40, 40, 40, 40, 2, 2⟩]

/-- A state whose single row shares day 5 with `c10_df`. -/
def c10_state : GCState := ⟨[⟨5, "z2101", 3, 3, 3, 3, 2, 2⟩], 7, 2⟩

/-- A contract overlapping `c10_state` on day 5 with a zero raw close
there. -/
def c10_df : List Bar :=
  [⟨5, "z2102", 0, 0, 0, 0, 2, 2⟩, ⟨6, "z2102", 41, 41, 41, 41, 2, 2⟩]

/-- A majors table with two days for product `Y` and one day of an
unrelated product, for the daily-ledger witness. -/
def c3_majors : List MajorRow :=
  [⟨1, "Y2101", 50, 55⟩, ⟨3, "Y2101", 50, 60⟩, ⟨2, "Q2101", 9, 9⟩]

/-- A resolved long position of product `Y` open on day 1, closing on
day 3. -/
def c3_row : ResRow :=
  ⟨1, "Y", "long", 500, "Y2101", 50, 55, 10, some 3, some 60, some 10, some 100⟩

/-- The spec's matching scenario: majors row of product `X` on day 0 with
close 1000. -/
def c5_majors : List MajorRow := [⟨0, "X2101", 1000, 995⟩]

/-- The merged open row of the scenario signal
`{date=0, product=X, position=long, amount=100000}`. -/
def c5_row : OpenRow := ⟨0, "X", "long", 100000, some ⟨0, "X2101", 1000, 995⟩⟩

/-- A position row whose close date is unresolved (`NaT`). -/
def c4_nat_row : ResRow :=
  ⟨1, "X", "long", 10, "X2101", 10, 10, 1, Option.none, Option.none, Option.none, Option.none⟩

/-- The resolved close-price-variant row of the scenario signal. -/
def mm_c4_res : MMRow :=
  ⟨0, "X", "long", 100000, "X2101", 1000, 100, 10, Option.none, Option.none, Option.none⟩

/-- The resolved settlement-variant row of the matching signal on day 0
(the one-day calendar leaves its close date unresolved). -/
def c6_good_res : ResRow :=
  ⟨0, "X", "long", 100000, "X2101", 1000, 995, 100,
    Option.none, Option.none, Option.none, Option.none⟩

/-- The single contract of `c9_df`. -/
def c9_contract : String := "x2101"

def c10_contract : String := "z2102"

/-- The adjustment the spec's gap rule prescribes for a roll boundary
without an overlap date, as amended: `difference` reuses the persistent
additive factor, `ratio` the persistent multiplicative ratio, while the
`backward`/`forward` path restarts from zero (identity). -/
def gap_adjusted (adjust : AdjustMethod) (st : GCState) (x : ℚ) : ℚ :=
  match adjust with
  | AdjustMethod.difference => x + st.adjustment_factor
  | AdjustMethod.ratio => x * st.adjustment_ratio
  | _ => x

def ct1 : String := "a2101"

def ct2 : String := "a2102"

def ct3 : String := "a2103"

def c8_st1 : GCState :=
  processContract c8_df RollStrategy.volume AdjustMethod.backward 0 0 0 ct1 (some ct2) ⟨[], 0, 1⟩

def c8_st2 : GCState :=
  processContract c8_df RollStrategy.volume AdjustMethod.backward 0 0 1 ct2 (some ct3) c8_st1

def c8_st3 : GCState :=
  processContract c8_df RollStrategy.volume AdjustMethod.backward 0 0 2 ct3 Option.none c8_st2

def c5_full_majors : List MajorRow :=
  [⟨0, "X2101", 1000, 995⟩, ⟨1, "X2101", 1, 995⟩, ⟨2, "X2101", 1, 995⟩,
   ⟨3, "X2101", 1, 995⟩, ⟨4, "X2101", 1, 995⟩, ⟨5, "X2101", 1, 995⟩,
   ⟨6, "X2101", 1, 995⟩, ⟨7, "X2101", 1, 995⟩, ⟨8, "X2101", 1, 995⟩,
   ⟨9, "X2101", 1, 995⟩, ⟨10, "X2101", 1, 1100⟩]

def cx1 : String := "X2101"

def cx2 : String := "X2102"

def c2_state : GCState := ⟨[⟨0, "w2012", 1, 1, 1, 1, 1, 1⟩], 0, 1⟩

theorem mem_uniqueFirstAux {α : Type} [DecidableEq α] {a : α} :
    ∀ (l seen : List α), a ∈ uniqueFirstAux seen l ↔ (a ∈ l ∧ a ∉ seen)
  | [], seen => by simp [uniqueFirstAux]
  | x :: xs, seen => by
    by_cases hx : x ∈ seen
    · rw [uniqueFirstAux, if_pos hx, mem_uniqueFirstAux xs seen]
      constructor
      · rintro ⟨h1, h2⟩; exact ⟨List.mem_cons_of_mem _ h1, h2⟩
      · rintro ⟨h1, h2⟩
        rcases List.mem_cons.mp h1 with rfl | h1
        · exact absurd hx h2
        · exact ⟨h1, h2⟩
    · rw [uniqueFirstAux, if_neg hx]
      constructor
      · intro h
        rcases List.mem_cons.mp h with rfl | h
        · exact ⟨List.mem_cons_self _ _, hx⟩
        · rcases (mem_uniqueFirstAux xs (x :: seen)).mp h with ⟨h1, h2⟩
          refine ⟨List.mem_cons_of_mem _ h1, fun hs => h2 (List.mem_cons_of_mem _ hs)⟩
      · rintro ⟨h1, h2⟩
        rcases List.mem_cons.mp h1 with rfl | h1
        · exact List.mem_cons_self _ _
        · by_cases hax : a = x
          · subst hax; exact List.mem_cons_self _ _
          · exact List.mem_cons_of_mem _
              ((mem_uniqueFirstAux xs (x :: seen)).mpr
                ⟨h1, fun hs => (List.mem_cons.mp hs).elim hax h2⟩)

theorem mem_uniqueFirst {α : Type} [DecidableEq α] {a : α} {l : List α} :
    a ∈ uniqueFirst l ↔ a ∈ l := by
  rw [uniqueFirst, mem_uniqueFirstAux]
  simp

theorem nodup_uniqueFirstAux {α : Type} [DecidableEq α] :
    ∀ (l seen : List α), (uniqueFirstAux seen l).Nodup
  | [], seen => by simp [uniqueFirstAux]
  | x :: xs, seen => by
    by_cases hx : x ∈ seen
    · rw [uniqueFirstAux, if_pos hx]; exact nodup_uniqueFirstAux xs seen
    · rw [uniqueFirstAux, if_neg hx]
      refine List.nodup_cons.mpr ⟨fun hmem => ?_, nodup_uniqueFirstAux xs (x :: seen)⟩
      exact ((mem_uniqueFirstAux xs (x :: seen)).mp hmem).2 (List.mem_cons_self _ _)

theorem nodup_uniqueFirst {α : Type} [DecidableEq α] (l : List α) :
    (uniqueFirst l).Nodup :=
  nodup_uniqueFirstAux l []

theorem series_min_eq_none : ∀ {l : List Int}, series_min l = Option.none ↔ l = []
  | [] => by simp [series_min]
  | x :: xs => by
    rw [series_min]
    cases series_min xs <;> simp

theorem series_min_isLeast :
    ∀ {l : List Int} {d : Int}, series_min l = some d ↔ (d ∈ l ∧ ∀ x ∈ l, d ≤ x)
  | [], d => by simp [series_min]
  | x :: xs, d => by
    rw [series_min]
    rcases hxs : series_min xs with _ | y
    · have hnil : xs = [] := series_min_eq_none.mp hxs
      subst hnil
      constructor
      · rintro h
        cases h
        exact ⟨List.mem_singleton.mpr rfl, by simp⟩
      · rintro ⟨h1, _⟩
        simp only [List.mem_singleton] at h1
        subst h1; rfl
    · have hy := (series_min_isLeast (l := xs) (d := y)).mp hxs
      constructor
      · rintro h
        cases h
        constructor
        · rcases le_total x y with hxy | hyx
          · simp [min_eq_left hxy]
          · rw [min_eq_right hyx]
            exact List.mem_cons_of_mem _ hy.1
        · intro z hz
          rcases List.mem_cons.mp hz with rfl | hz
          · exact min_le_left _ _
          · exact le_trans (min_le_right x y) (hy.2 z hz)
      · rintro ⟨h1, h2⟩
        have hxle : d ≤ x := h2 x (List.mem_cons_self _ _)
        have hyle : d ≤ y := le_trans (h2 y (List.mem_cons_of_mem _ hy.1)) (le_refl y)
        have hge : min x y ≤ d := by
          rcases List.mem_cons.mp h1 with rfl | h1
          · exact min_le_left _ _
          · exact le_trans (min_le_right x y) (hy.2 d h1)
        have : d = min x y := le_antisymm (le_min hxle hyle) hge
        rw [this]

theorem pyfloor_eq_floor (q : ℚ) : pyfloor q = ⌊q⌋ := by
  rw [pyfloor, Rat.floor_def]

theorem astype_int_eq_floor {q : ℚ} (h : 0 ≤ q) : astype_int q = ⌊q⌋ := by
  rw [astype_int, if_pos h, pyfloor_eq_floor]

/-! ### C7: backward and forward adjustment coincide -/
theorem processContract_backward_forward (df : List Bar) (strat : RollStrategy)
    (dd rd : Int) (i : Nat) (c : String) (next : Option String) (st : GCState) :
    processContract df strat AdjustMethod.backward dd rd i c next st =
      processContract df strat AdjustMethod.forward dd rd i c next st := by
  by_cases h1 : contractData df c = []
  · simp [processContract, h1]
  · by_cases h2 : 0 < i
    · by_cases h3 : st.continuous = []
      · simp [processContract, h1, h2, h3]
      · simp [processContract, h1, h2, h3, adjusted_segment, updated_factor, updated_ratio]
    · simp [processContract, h1, h2]

theorem processContracts_backward_forward (df : List Bar) (strat : RollStrategy)
    (dd rd : Int) :
    ∀ (cs : List String) (i : Nat) (st : GCState),
      processContracts df strat AdjustMethod.backward dd rd i cs st =
        processContracts df strat AdjustMethod.forward dd rd i cs st
  | [], _, _ => rfl
  | c :: rest, i, st => by
    rw [processContracts, processContracts, processContract_backward_forward,
      processContracts_backward_forward df strat dd rd rest]

/-! ### Trading-day calendar lemmas -/
theorem trading_days_nodup (majors : List MajorRow) : (trading_days majors).Nodup :=
  ((List.perm_insertionSort _ _).nodup_iff).mpr (nodup_uniqueFirst _)

theorem mem_trading_days {majors : List MajorRow} {d : Int} :
    d ∈ trading_days majors ↔ ∃ m ∈ majors, m.date = d := by
  rw [trading_days, (List.perm_insertionSort _ _).mem_iff, mem_uniqueFirst, List.mem_map]

theorem first_index_of_get :
    ∀ {l : List Int}, l.Nodup → ∀ (i : Nat) (hi : i < l.length),
      first_index_of (l.get ⟨i, hi⟩) l = some i
  | [], _, i, hi => absurd hi (by simp)
  | x :: xs, h, 0, hi => by simp [first_index_of]
  | x :: xs, h, i + 1, hi => by
    rw [List.get_cons_succ]
    have hx : ¬ (x = xs.get ⟨i, Nat.lt_of_succ_lt_succ hi⟩) := fun heq =>
      (List.nodup_cons.mp h).1 (by rw [heq]; exact List.get_mem xs i _)
    rw [first_index_of, if_neg hx,
      first_index_of_get (List.nodup_cons.mp h).2 i (Nat.lt_of_succ_lt_succ hi)]
    rfl

/-- C7: for every input table, roll strategy, month filter and day
parameters, `generate_continuous` returns the identical series under
`adjust_method="backward"` and `adjust_method="forward"`: the two method
names select the same code path, which applies one additive adjustment
equal to the continuous adjusted close minus the new contract's raw close
at the overlap date (zero when there is none). -/
theorem generate_continuous_backward_eq_forward (df : List Bar) (strat : RollStrategy)
    (contract_months : Option (List Nat)) (dd rd : Int) :
    generate_continuous df strat AdjustMethod.backward contract_months dd rd =
      generate_continuous df strat AdjustMethod.forward contract_months dd rd := by
  simp only [generate_continuous, processContracts_backward_forward df strat dd rd]

theorem get_close_date_of_first_index {td : List Int} {d : Int} {k : Nat}
    (h : first_index_of d td = some k) :
    get_close_date td d = if k + 10 < td.length then td.get? (k + 10) else Option.none := by
  rw [get_close_date, h]

/-- C4 counterexample: with trading days `[1,2,3,4,5]` and a signal
opened on day 1, fewer than ten sessions remain; `get_close_date`
returns `NaT` (`none`), not the last available trading day 5 that the
claim's clamping rule would require. -/
theorem get_close_date_no_clamp_counterexample :
    trading_days c4_majors = [1, 2, 3, 4, 5] ∧
    get_close_date (trading_days c4_majors) 1 = Option.none := by
  constructor
  · decide
  · decide

/-- C4 (amended): `close_date` is the trading day exactly ten sessions
after `open_date` in the sorted deduplicated calendar when that day
exists; when fewer than ten sessions remain (or the open date is absent
from the calendar) `close_date` is `NaT`, the position contributes no
daily-PnL records, and nothing is clamped.  The close-price variant
(`match_major_with_signal.py`) instead uses `open_date` plus ten
calendar days. -/
theorem close_date_ten_sessions_or_nat :
    (∀ (majors : List MajorRow) (k : Nat) (d c' : Int),
      (trading_days majors).get? k = some d →
      (trading_days majors).get? (k + 10) = some c' →
      get_close_date (trading_days majors) d = some c') ∧
    (∀ (majors : List MajorRow) (k : Nat) (d : Int),
      (trading_days majors).get? k = some d →
      (trading_days majors).get? (k + 10) = Option.none →
      get_close_date (trading_days majors) d = Option.none) ∧
    (∀ (majors : List MajorRow) (td : List Int) (r : ResRow),
      r.close_date = Option.none → daily_records_for majors td r = []) ∧
    (∀ (majors : List MajorRow) (r : OpenRow) (res : MMRow),
      mm_resolve_row majors r = some res → res.close_date = r.date + 10) := by
  refine ⟨?_, ?_, ?_, ?_⟩
  · intro majors k d c' hk hk10
    obtain ⟨hlt, rfl⟩ := List.get?_eq_some.mp hk
    rw [get_close_date_of_first_index (first_index_of_get (trading_days_nodup majors) k hlt),
      if_pos (List.get?_eq_some.mp hk10).1, hk10]
  · intro majors k d hk hk10
    obtain ⟨hlt, rfl⟩ := List.get?_eq_some.mp hk
    rw [get_close_date_of_first_index (first_index_of_get (trading_days_nodup majors) k hlt),
      if_neg (fun hcon => by rw [List.get?_eq_get hcon] at hk10; exact Option.noConfusion hk10)]
  · intro majors td r h
    rw [daily_records_for, h]
  · intro majors r res h
    rcases hm : r.matched with _ | m
    · simp only [mm_resolve_row, hm] at h
      exact Option.noConfusion h
    · simp only [mm_resolve_row, hm] at h
      by_cases hz : m.close = 0
      · simp only [if_pos hz] at h
        exact Option.noConfusion h
      · simp only [if_neg hz] at h
        obtain rfl := Option.some.inj h
        rfl

theorem mm_c4_res_eq : mm_resolve_row c5_majors c5_row = some mm_c4_res := by
  norm_num [mm_resolve_row, c5_row, c5_majors, mm_c4_res, pyfloor, List.find?]

theorem close_date_ten_sessions_or_nat_witness :
    get_close_date (trading_days c4_long_majors) 1 = some 11 ∧
    get_close_date (trading_days c4_majors) 1 = Option.none ∧
    daily_records_for c4_majors (trading_days c4_majors) c4_nat_row = [] ∧
    mm_c4_res.close_date = c5_row.date + 10 :=
  ⟨close_date_ten_sessions_or_nat.1 c4_long_majors 0 1 11 (by decide) (by decide),
    close_date_ten_sessions_or_nat.2.1 c4_majors 0 1 (by decide) (by decide),
    close_date_ten_sessions_or_nat.2.2.1 c4_majors _ c4_nat_row rfl,
    close_date_ten_sessions_or_nat.2.2.2 c5_majors c5_row mm_c4_res mm_c4_res_eq⟩

/-- C6: a signal whose date has no matching majors row does not get
dropped — the left merge leaves `NaN` in `open_price`, and the
whole-column cast `(amount / open_price).astype(int)` raises, aborting
the entire run with no output at all; the same batch without the
unmatched signal completes. -/
theorem unmatched_signal_aborts_run :
    match_signals_run [c6_bad_signal, c6_good_signal] c6_majors = Option.none ∧
    match_signals_run [c6_good_signal] c6_majors = some ([c6_good_res], []) := by
  constructor
  · decide
  · norm_num [match_signals_run, resolve_all, resolve_row, left_merge_open, trading_days,
      get_close_date, first_index_of, astype_int, pyfloor, str_upper, str_lower,
      extract_product, uniqueFirst, uniqueFirstAux, List.insertionSort, List.orderedInsert,
      hold_period, daily_records_for, List.find?, c6_good_signal, c6_majors, c6_good_res]
    decide

/-- C9 counterexample: under `roll_strategy="time"` (with
`dominant_days=5`) the single—and therefore last—contract `x2101` is
still truncated at its rollover date 2021-01-26: the bar of 2021-01-29
(day 18656) is dropped, so the continuous series under `none` adjustment
is not the contract's raw series. -/
theorem last_contract_truncated_counterexample :
    (generate_continuous c9_df RollStrategy.time AdjustMethod.none Option.none 5 0).map
        (fun r => r.date) = [18647] ∧
    (List.insertionSort barLe c9_df).map (fun b => b.date) = [18647, 18656] := by
  constructor
  · decide
  · decide

theorem uniqueFirstAux_eq_nil {α : Type} [DecidableEq α] :
    ∀ {l seen : List α}, (∀ x ∈ l, x ∈ seen) → uniqueFirstAux seen l = []
  | [], _, _ => rfl
  | x :: xs, seen, h => by
    rw [uniqueFirstAux, if_pos (h x (List.mem_cons_self _ _))]
    exact uniqueFirstAux_eq_nil (fun y hy => h y (List.mem_cons_of_mem _ hy))

theorem uniqueFirst_of_constant {α : Type} [DecidableEq α] {l : List α} {c : α}
    (hne : l ≠ []) (h : ∀ x ∈ l, x = c) : uniqueFirst l = [c] := by
  rcases l with _ | ⟨x, xs⟩
  · exact absurd rfl hne
  · obtain rfl := h x (List.mem_cons_self _ _)
    rw [uniqueFirst, uniqueFirstAux, if_neg (List.not_mem_nil x),
      uniqueFirstAux_eq_nil (fun y hy => List.mem_singleton.mpr (h y (List.mem_cons_of_mem _ hy)))]

theorem appendRows_nil (rows : List ContRow) : appendRows [] rows = rows := by
  rw [appendRows, if_pos rfl]

theorem contractData_of_all {df : List Bar} {c : String} (h : ∀ b ∈ df, b.contract = c) :
    contractData df c = List.insertionSort barLe df := by
  rw [contractData, List.filter_eq_self.mpr (fun b hb => decide_eq_true (h b hb))]

theorem insertionSort_ne_nil {α : Type} {r : α → α → Prop} [DecidableRel r] {l : List α}
    (h : l ≠ []) : List.insertionSort r l ≠ [] := fun hs =>
  h (((hs ▸ (List.perm_insertionSort r l).symm) : l.Perm []).eq_nil)

/-- C9 (amended): for the roll strategies that need a next contract
(`volume`, `oi`, `fixed`) the last contract gets no rollover date and so
contributes all its remaining bars; under `time` the truncation applies
even to the last contract.  Consequently a product whose bars all belong
to one contract yields, under any non-`time` strategy and `none`
adjustment, exactly its raw series sorted by date. -/
theorem last_contract_whole_except_time :
    (∀ (df : List Bar) (strat : RollStrategy) (c : String) (dd rd : Int),
      strat ≠ RollStrategy.time →
      rollover_date df strat c Option.none dd rd = Option.none) ∧
    (∀ (df : List Bar) (strat : RollStrategy) (c : String) (dd rd : Int),
      strat ≠ RollStrategy.time → (∀ b ∈ df, b.contract = c) →
      generate_continuous df strat AdjustMethod.none Option.none dd rd =
        (List.insertionSort barLe df).map (applyRaw c)) := by
  have part1 : ∀ (df : List Bar) (strat : RollStrategy) (c : String) (dd rd : Int),
      strat ≠ RollStrategy.time →
      rollover_date df strat c Option.none dd rd = Option.none := by
    intro df strat c dd rd h
    cases strat
    · rfl
    · rfl
    · exact absurd rfl h
    · rfl
  refine ⟨part1, ?_⟩
  intro df strat c dd rd hstrat hall
  rcases hdf : df with _ | ⟨b0, rest⟩
  · rfl
  · rw [← hdf]
    have hne : df ≠ [] := by rw [hdf]; exact List.cons_ne_nil _ _
    have hcd : contractData df c = List.insertionSort barLe df := contractData_of_all hall
    have hid : identify_contracts df = [c] := by
      rw [identify_contracts, uniqueFirst_of_constant
        (fun hmap => hne (List.map_eq_nil_iff.mp hmap))
        (fun x hx => by
          obtain ⟨b, hb, rfl⟩ := List.mem_map.mp hx
          exact hall b hb)]
      rfl
    have hstep : processContracts df strat AdjustMethod.none dd rd 0 [c] ⟨[], 0, 1⟩ =
        processContract df strat AdjustMethod.none dd rd 0 c Option.none ⟨[], 0, 1⟩ := rfl
    have hproc : processContract df strat AdjustMethod.none dd rd 0 c Option.none ⟨[], 0, 1⟩ =
        ⟨(List.insertionSort barLe df).map (applyRaw c), 0, 1⟩ := by
      rw [processContract, if_neg (fun hcon => insertionSort_ne_nil hne (hcd ▸ hcon)),
        if_neg (by simp)]
      have hseg : raw_segment df strat dd rd c Option.none =
          (List.insertionSort barLe df).map (applyRaw c) := by
        rw [raw_segment, part1 df strat c dd rd hstrat, rollover_filter, hcd]
      rw [hseg]
      simp [appendRows_nil]
    have hsorted : List.Sorted rowLe ((List.insertionSort barLe df).map (applyRaw c)) :=
      List.Pairwise.map _ (fun _ _ h => h) (List.sorted_insertionSort barLe df)
    simp only [generate_continuous, hid]
    rw [hstep, hproc]
    exact hsorted.insertionSort_eq

theorem last_contract_whole_except_time_witness :
    rollover_date c9_df RollStrategy.volume c9_contract Option.none 5 0 = Option.none ∧
    generate_continuous c9_df RollStrategy.volume AdjustMethod.none Option.none 5 0 =
      (List.insertionSort barLe c9_df).map (applyRaw c9_contract) :=
  ⟨last_contract_whole_except_time.1 c9_df RollStrategy.volume c9_contract 5 0 (by decide),
   last_contract_whole_except_time.2 c9_df RollStrategy.volume c9_contract 5 0 (by decide)
     (by decide)⟩

/-! ### Segment membership lemmas -/
theorem mem_contractData {df : List Bar} {c : String} {b : Bar} :
    b ∈ contractData df c ↔ b ∈ df ∧ b.contract = c := by
  rw [contractData, (List.perm_insertionSort _ _).mem_iff, List.mem_filter]
  simp

theorem mem_of_mem_rollover_filter {roll : Option Int} {rows : List ContRow} {r : ContRow}
    (h : r ∈ rollover_filter roll rows) : r ∈ rows := by
  rcases roll with _ | d
  · exact h
  · exact List.mem_of_mem_filter h

theorem mem_appendRows {cont rows : List ContRow} {r : ContRow}
    (h : r ∈ appendRows cont rows) : r ∈ cont ∨ r ∈ rows := by
  rw [appendRows] at h
  by_cases hc : cont = []
  · rw [if_pos hc] at h; exact Or.inr h
  · rw [if_neg hc] at h
    rcases List.mem_append.mp h with h | h
    · exact Or.inl h
    · exact Or.inr (List.mem_of_mem_filter h)

theorem overlap_date_nil_right (cont : List ContRow) :
    overlap_date cont [] = Option.none := by
  rw [overlap_date]
  have h : cont.filter (fun r => ([] : List Bar).any (fun s => s.date = r.date)) = [] := by
    simp
  rw [h]
  rfl

theorem updated_factor_gap {df : List Bar} {adjust : AdjustMethod} {c : String} {st : GCState}
    (hov : overlap_date st.continuous (contractData df c) = Option.none) :
    updated_factor df adjust c st = st.adjustment_factor := by
  simp only [updated_factor, hov]

theorem updated_ratio_gap {df : List Bar} {adjust : AdjustMethod} {c : String} {st : GCState}
    (hov : overlap_date st.continuous (contractData df c) = Option.none) :
    updated_ratio df adjust c st = st.adjustment_ratio := by
  simp only [updated_ratio, hov]

theorem updated_ratio_of_zero_close {df : List Bar} {c : String} {st : GCState} {d : Int}
    (hov : overlap_date st.continuous (contractData df c) = some d)
    (hz : raw_close_at (contractData df c) d = 0) :
    updated_ratio df AdjustMethod.ratio c st = st.adjustment_ratio := by
  simp only [updated_ratio, hov, hz]
  simp

/-- C10: at a roll boundary whose overlap-date raw close of the incoming
contract is zero, the `ratio` guard skips the ratio update: the loop
state keeps the prior multiplicative ratio and every row the new
contract contributes is its raw OHLC scaled by that prior ratio, so the
quotient `prev_price / curr_price` is never formed with a zero
denominator. -/
theorem ratio_zero_close_guard (df : List Bar) (strat : RollStrategy) (dd rd : Int)
    (i : Nat) (c : String) (next : Option String) (st : GCState) (d : Int)
    (hi : 0 < i) (hne : st.continuous ≠ [])
    (hov : overlap_date st.continuous (contractData df c) = some d)
    (hz : raw_close_at (contractData df c) d = 0) :
    (processContract df strat AdjustMethod.ratio dd rd i c next st).adjustment_ratio =
      st.adjustment_ratio ∧
    ∀ r ∈ (processContract df strat AdjustMethod.ratio dd rd i c next st).continuous,
      r ∉ st.continuous →
      ∃ b ∈ df, b.contract = c ∧ b.date = r.date ∧
        r.open_ = b.open_ * st.adjustment_ratio ∧ r.high = b.high * st.adjustment_ratio ∧
        r.low = b.low * st.adjustment_ratio ∧ r.close = b.close * st.adjustment_ratio := by
  have hcd : contractData df c ≠ [] := by
    intro hnil
    rw [hnil, overlap_date_nil_right] at hov
    exact Option.noConfusion hov
  have hur := updated_ratio_of_zero_close hov hz
  rw [processContract, if_neg hcd,
    if_pos (⟨hi, by decide⟩ : 0 < i ∧ AdjustMethod.ratio ∈ [AdjustMethod.backward,
      AdjustMethod.forward, AdjustMethod.ratio, AdjustMethod.difference]),
    if_neg hne]
  refine ⟨hur, ?_⟩
  intro r hr hrn
  rcases mem_appendRows hr with hmem | hmem
  · exact absurd hmem hrn
  · simp only [adjusted_segment] at hmem
    have hseg := mem_of_mem_rollover_filter hmem
    obtain ⟨b, hb, rfl⟩ := List.mem_map.mp hseg
    obtain ⟨hbdf, hbc⟩ := mem_contractData.mp hb
    refine ⟨b, hbdf, hbc, rfl, ?_, ?_, ?_, ?_⟩ <;> simp [applyMul, hur]

theorem ratio_zero_close_guard_witness :
    (processContract c10_df RollStrategy.volume AdjustMethod.ratio 0 0 1 c10_contract
        Option.none c10_state).adjustment_ratio = c10_state.adjustment_ratio ∧
    ∀ r ∈ (processContract c10_df RollStrategy.volume AdjustMethod.ratio 0 0 1 c10_contract
        Option.none c10_state).continuous,
      r ∉ c10_state.continuous →
      ∃ b ∈ c10_df, b.contract = c10_contract ∧ b.date = r.date ∧
        r.open_ = b.open_ * c10_state.adjustment_ratio ∧
        r.high = b.high * c10_state.adjustment_ratio ∧
        r.low = b.low * c10_state.adjustment_ratio ∧
        r.close = b.close * c10_state.adjustment_ratio :=
  ratio_zero_close_guard c10_df RollStrategy.volume 0 0 1 c10_contract Option.none
    c10_state 5 (by decide) (by decide) (by decide) (by rfl)

/-- C8 (amended): at a roll boundary with no overlap date the persistent
accumulators are left unchanged, and the segment the new contract
contributes is adjusted by the previous roll's constant only under
`difference` (additive factor) and `ratio` (multiplicative ratio); under
`backward`/`forward` the locally recomputed adjustment restarts from
zero, so the segment is raw, and under `none` it is raw as well. -/
theorem gap_roll_adjustment (df : List Bar) (strat : RollStrategy) (adjust : AdjustMethod)
    (dd rd : Int) (i : Nat) (c : String) (next : Option String) (st : GCState)
    (hi : 0 < i) (hne : st.continuous ≠ [])
    (hov : overlap_date st.continuous (contractData df c) = Option.none) :
    (processContract df strat adjust dd rd i c next st).adjustment_factor =
      st.adjustment_factor ∧
    (processContract df strat adjust dd rd i c next st).adjustment_ratio =
      st.adjustment_ratio ∧
    ∀ r ∈ (processContract df strat adjust dd rd i c next st).continuous,
      r ∉ st.continuous →
      ∃ b ∈ df, b.contract = c ∧ b.date = r.date ∧
        r.open_ = gap_adjusted adjust st b.open_ ∧
        r.high = gap_adjusted adjust st b.high ∧
        r.low = gap_adjusted adjust st b.low ∧
        r.close = gap_adjusted adjust st b.close := by
  by_cases hcd : contractData df c = []
  · rw [processContract, if_pos hcd]
    exact ⟨rfl, rfl, fun r hr hrn => absurd hr hrn⟩
  · have hfrom_seg : ∀ {segment : List ContRow},
        (∀ r ∈ segment, ∃ b ∈ df, b.contract = c ∧ b.date = r.date ∧
          r.open_ = gap_adjusted adjust st b.open_ ∧
          r.high = gap_adjusted adjust st b.high ∧
          r.low = gap_adjusted adjust st b.low ∧
          r.close = gap_adjusted adjust st b.close) →
        ∀ r ∈ appendRows st.continuous segment, r ∉ st.continuous →
        ∃ b ∈ df, b.contract = c ∧ b.date = r.date ∧
          r.open_ = gap_adjusted adjust st b.open_ ∧
          r.high = gap_adjusted adjust st b.high ∧
          r.low = gap_adjusted adjust st b.low ∧
          r.close = gap_adjusted adjust st b.close := by
      intro segment hall r hr hrn
      rcases mem_appendRows hr with hmem | hmem
      · exact absurd hmem hrn
      · exact hall r hmem
    cases adjust with
    | none =>
      rw [processContract, if_neg hcd, if_neg (by simp)]
      refine ⟨rfl, rfl, hfrom_seg ?_⟩
      intro r hr
      obtain ⟨b, hb, rfl⟩ := List.mem_map.mp (mem_of_mem_rollover_filter hr)
      obtain ⟨hbdf, hbc⟩ := mem_contractData.mp hb
      exact ⟨b, hbdf, hbc, rfl, rfl, rfl, rfl, rfl⟩
    | difference =>
      rw [processContract, if_neg hcd, if_pos ⟨hi, by decide⟩, if_neg hne]
      refine ⟨updated_factor_gap hov, updated_ratio_gap hov, hfrom_seg ?_⟩
      intro r hr
      simp only [adjusted_segment] at hr
      obtain ⟨b, hb, rfl⟩ := List.mem_map.mp (mem_of_mem_rollover_filter hr)
      obtain ⟨hbdf, hbc⟩ := mem_contractData.mp hb
      refine ⟨b, hbdf, hbc, rfl, ?_, ?_, ?_, ?_⟩ <;>
        simp [applyAdd, gap_adjusted, updated_factor_gap hov]
    | ratio =>
      rw [processContract, if_neg hcd, if_pos ⟨hi, by decide⟩, if_neg hne]
      refine ⟨updated_factor_gap hov, updated_ratio_gap hov, hfrom_seg ?_⟩
      intro r hr
      simp only [adjusted_segment] at hr
      obtain ⟨b, hb, rfl⟩ := List.mem_map.mp (mem_of_mem_rollover_filter hr)
      obtain ⟨hbdf, hbc⟩ := mem_contractData.mp hb
      refine ⟨b, hbdf, hbc, rfl, ?_, ?_, ?_, ?_⟩ <;>
        simp [applyMul, gap_adjusted, updated_ratio_gap hov]
    | backward =>
      rw [processContract, if_neg hcd, if_pos ⟨hi, by decide⟩, if_neg hne]
      refine ⟨updated_factor_gap hov, updated_ratio_gap hov, hfrom_seg ?_⟩
      intro r hr
      simp only [adjusted_segment, hov] at hr
      obtain ⟨b, hb, rfl⟩ := List.mem_map.mp (mem_of_mem_rollover_filter hr)
      obtain ⟨hbdf, hbc⟩ := mem_contractData.mp hb
      refine ⟨b, hbdf, hbc, rfl, ?_, ?_, ?_, ?_⟩ <;> simp [applyAdd, gap_adjusted]
    | forward =>
      rw [processContract, if_neg hcd, if_pos ⟨hi, by decide⟩, if_neg hne]
      refine ⟨updated_factor_gap hov, updated_ratio_gap hov, hfrom_seg ?_⟩
      intro r hr
      simp only [adjusted_segment, hov] at hr
      obtain ⟨b, hb, rfl⟩ := List.mem_map.mp (mem_of_mem_rollover_filter hr)
      obtain ⟨hbdf, hbc⟩ := mem_contractData.mp hb
      refine ⟨b, hbdf, hbc, rfl, ?_, ?_, ?_, ?_⟩ <;> simp [applyAdd, gap_adjusted]

theorem gap_roll_adjustment_witness :
    (processContract c8_gap_df RollStrategy.volume AdjustMethod.difference 0 0 1 c10_contract
        Option.none c8_state).adjustment_factor = c8_state.adjustment_factor ∧
    (processContract c8_gap_df RollStrategy.volume AdjustMethod.difference 0 0 1 c10_contract
        Option.none c8_state).adjustment_ratio = c8_state.adjustment_ratio ∧
    ∀ r ∈ (processContract c8_gap_df RollStrategy.volume AdjustMethod.difference 0 0 1
        c10_contract Option.none c8_state).continuous,
      r ∉ c8_state.continuous →
      ∃ b ∈ c8_gap_df, b.contract = c10_contract ∧ b.date = r.date ∧
        r.open_ = gap_adjusted AdjustMethod.difference c8_state b.open_ ∧
        r.high = gap_adjusted AdjustMethod.difference c8_state b.high ∧
        r.low = gap_adjusted AdjustMethod.difference c8_state b.low ∧
        r.close = gap_adjusted AdjustMethod.difference c8_state b.close :=
  gap_roll_adjustment c8_gap_df RollStrategy.volume AdjustMethod.difference 0 0 1
    c10_contract Option.none c8_state (by decide) (by decide) (by decide)

/-- C8 counterexample: in the three-contract run of `c8_df` under
`backward` adjustment, the roll from `a2101` to `a2102` (overlap day 2)
shifts the incoming segment by `110 - 90 = 20` (day 3 close becomes
115), but at the next boundary — `a2103`, whose days 5 and 6 share no
date with the frame — the backward path restarts its local adjustment
from zero and appends the raw closes 50 and 55, not the previous roll's
constant applied (`50 + 20 = 70`). -/
theorem backward_gap_counterexample :
    c8_st2.continuous.map (fun r => (r.date, r.close)) =
      [(1, (100 : ℚ)), (2, 110), (3, 115)] ∧
    c8_st3.continuous.map (fun r => (r.date, r.close)) =
      [(1, (100 : ℚ)), (2, 110), (3, 115), (5, 50), (6, 55)] ∧
    (50 : ℚ) ≠ 50 + 20 := by
  have h2 : c8_st2.continuous.map (fun r => (r.date, r.close)) =
      [(1, (100 : ℚ)), (2, 110), (3, 95 + (110 - 90))] := rfl
  have h3 : c8_st3.continuous.map (fun r => (r.date, r.close)) =
      [(1, (100 : ℚ)), (2, 110), (3, 95 + (110 - 90)), (5, 50 + 0), (6, 55 + 0)] := rfl
  refine ⟨?_, ?_, by norm_num⟩
  · rw [h2]; norm_num
  · rw [h3]; norm_num

/-- C5: for a matched signal with positive amount and positive open
price, both pipeline variants compute `open_quantity = ⌊amount /
open_price⌋` (the settlement variant's `.astype(int)` truncation agrees
with `np.floor` on the positive quotient), `profit_per_unit` is the
signed close-mark-minus-open difference, and `total_profit` is
`profit_per_unit * open_quantity`. -/
theorem open_quantity_and_profit (majors : List MajorRow) (td : List Int) (r : OpenRow)
    (m : MajorRow) (hm : r.matched = some m) (ha : 0 < r.amount) (hp : 0 < m.close) :
    (∃ res, resolve_row majors td r = some res ∧
      res.open_price = m.close ∧
      res.open_quantity = ⌊r.amount / m.close⌋ ∧
      (∀ s, res.close_settlement = some s →
        res.profit_per_unit =
          some (if str_lower r.position = "long" then s - m.close else m.close - s) ∧
        res.total_profit =
          some ((if str_lower r.position = "long" then s - m.close else m.close - s) *
            (⌊r.amount / m.close⌋ : ℚ)))) ∧
    (∃ res, mm_resolve_row majors r = some res ∧
      res.open_price = m.close ∧
      res.open_quantity = ⌊r.amount / m.close⌋ ∧
      (∀ cp, res.close_price = some cp →
        res.profit_per_unit =
          some (if str_lower r.position = "long" then cp - m.close else m.close - cp) ∧
        res.total_profit =
          some ((if str_lower r.position = "long" then cp - m.close else m.close - cp) *
            (⌊r.amount / m.close⌋ : ℚ)))) := by
  have hq : astype_int (r.amount / m.close) = ⌊r.amount / m.close⌋ :=
    astype_int_eq_floor (div_nonneg ha.le hp.le)
  have hq' : pyfloor (r.amount / m.close) = ⌊r.amount / m.close⌋ :=
    pyfloor_eq_floor _
  constructor
  · simp only [resolve_row, hm]
    rw [if_neg hp.ne']
    refine ⟨_, rfl, rfl, hq, ?_⟩
    intro s hs
    simp only at hs
    simp only [hs, hq]
    exact ⟨rfl, rfl⟩
  · simp only [mm_resolve_row, hm]
    rw [if_neg hp.ne']
    refine ⟨_, rfl, rfl, hq', ?_⟩
    intro cp hcp
    simp only at hcp
    simp only [hcp, hq']
    exact ⟨rfl, rfl⟩

theorem open_quantity_and_profit_witness :
    c5_row.matched = some (⟨0, "X2101", 1000, 995⟩ : MajorRow) ∧
    (0 : ℚ) < c5_row.amount ∧
    (0 : ℚ) < (⟨0, "X2101", 1000, 995⟩ : MajorRow).close ∧
    (∃ res, resolve_row c5_full_majors (trading_days c5_full_majors) c5_row = some res ∧
      res.open_price = (⟨0, "X2101", 1000, 995⟩ : MajorRow).close ∧
      res.open_quantity = ⌊c5_row.amount / (⟨0, "X2101", 1000, 995⟩ : MajorRow).close⌋ ∧
      (∀ s, res.close_settlement = some s →
        res.profit_per_unit =
          some (if str_lower c5_row.position = "long"
            then s - (⟨0, "X2101", 1000, 995⟩ : MajorRow).close
            else (⟨0, "X2101", 1000, 995⟩ : MajorRow).close - s) ∧
        res.total_profit =
          some ((if str_lower c5_row.position = "long"
            then s - (⟨0, "X2101", 1000, 995⟩ : MajorRow).close
            else (⟨0, "X2101", 1000, 995⟩ : MajorRow).close - s) *
            (⌊c5_row.amount / (⟨0, "X2101", 1000, 995⟩ : MajorRow).close⌋ : ℚ)))) ∧
    (resolve_row c5_full_majors (trading_days c5_full_majors) c5_row).map
        (fun res => (res.open_quantity, res.close_date, res.close_settlement,
          res.total_profit)) =
      some (100, some 10, some 1100, some 10000) := by
  refine ⟨rfl, by decide, by decide,
    (open_quantity_and_profit c5_full_majors (trading_days c5_full_majors) c5_row
      ⟨0, "X2101", 1000, 995⟩ rfl (by decide) (by decide)).1, ?_⟩
  have hrfl : (resolve_row c5_full_majors (trading_days c5_full_majors) c5_row).map
      (fun res => (res.open_quantity, res.close_date, res.close_settlement,
        res.total_profit)) =
      some (astype_int ((100000 : ℚ) / 1000), some 10, some 1100,
        some (((1100 : ℚ) - 1000) * ((astype_int ((100000 : ℚ) / 1000) : Int) : ℚ))) := rfl
  rw [hrfl]
  norm_num [astype_int, pyfloor]

/-! ### The generic shape of one contract step -/
theorem rollover_filter_nil (roll : Option Int) : rollover_filter roll [] = [] := by
  rcases roll with _ | d
  · rfl
  · rfl

theorem appendRows_nil_right (cont : List ContRow) : appendRows cont [] = cont := by
  rw [appendRows]
  by_cases hc : cont = []
  · rw [if_pos hc, hc]
  · rw [if_neg hc, List.filter_nil, List.append_nil]

theorem mem_appendRows_of_new {cont rows : List ContRow} {r : ContRow} (hr : r ∈ rows)
    (hnew : r.date ∉ cont.map (fun s => s.date)) : r ∈ appendRows cont rows := by
  rw [appendRows]
  by_cases hc : cont = []
  · rw [if_pos hc]; exact hr
  · rw [if_neg hc]
    exact List.mem_append.mpr (Or.inr (List.mem_filter.mpr ⟨hr, decide_eq_true hnew⟩))

theorem adjusted_segment_shape (df : List Bar) (strat : RollStrategy)
    (adjust : AdjustMethod) (dd rd : Int) (c : String) (next : Option String)
    (st : GCState) :
    ∃ f : Bar → ContRow,
      adjusted_segment df strat adjust dd rd c next st =
        rollover_filter (rollover_date df strat c next dd rd)
          ((contractData df c).map f) ∧
      ∀ b : Bar, (f b).date = b.date ∧ (f b).contract = c := by
  cases adjust with
  | difference => exact ⟨_, rfl, fun b => ⟨rfl, rfl⟩⟩
  | ratio => exact ⟨_, rfl, fun b => ⟨rfl, rfl⟩⟩
  | backward => exact ⟨_, rfl, fun b => ⟨rfl, rfl⟩⟩
  | forward => exact ⟨_, rfl, fun b => ⟨rfl, rfl⟩⟩
  | none => exact ⟨_, rfl, fun b => ⟨rfl, rfl⟩⟩

/-- Every branch of one loop iteration appends (dedup-filtered) a
rollover-filtered, date- and contract-preserving image of the current
contract's sorted rows — provided the continuous frame is nonempty, so
the inner `continue` cannot fire. -/
theorem processContract_shape (df : List Bar) (strat : RollStrategy)
    (adjust : AdjustMethod) (dd rd : Int) (i : Nat) (c : String) (next : Option String)
    (st : GCState) (hne : st.continuous ≠ []) :
    ∃ f : Bar → ContRow,
      (processContract df strat adjust dd rd i c next st).continuous =
        appendRows st.continuous
          (rollover_filter (rollover_date df strat c next dd rd)
            ((contractData df c).map f)) ∧
      ∀ b : Bar, (f b).date = b.date ∧ (f b).contract = c := by
  by_cases hcd : contractData df c = []
  · refine ⟨applyRaw c, ?_, fun b => ⟨rfl, rfl⟩⟩
    rw [processContract, if_pos hcd, hcd, List.map_nil, rollover_filter_nil,
      appendRows_nil_right]
  · rw [processContract, if_neg hcd]
    by_cases hbr : 0 < i ∧ adjust ∈ [AdjustMethod.backward, AdjustMethod.forward,
        AdjustMethod.ratio, AdjustMethod.difference]
    · rw [if_pos hbr, if_neg hne]
      obtain ⟨f, hseg, hf⟩ := adjusted_segment_shape df strat adjust dd rd c next st
      exact ⟨f, by rw [← hseg], hf⟩
    · rw [if_neg hbr]
      exact ⟨applyRaw c, rfl, fun b => ⟨rfl, rfl⟩⟩

theorem mem_volume_candidates {df : List Bar} {c nc : String} {x : Int} :
    x ∈ (contractData df c).flatMap (fun r =>
      ((df.filter (fun b => b.contract = nc)).filter (fun s => s.date = r.date)).filterMap
        (fun s => if r.volume < s.volume then some r.date else Option.none)) ↔
    (∃ r ∈ df, r.contract = c ∧ r.date = x ∧
      ∃ s ∈ df, s.contract = nc ∧ s.date = x ∧ r.volume < s.volume) := by
  rw [List.mem_flatMap]
  constructor
  · rintro ⟨r, hr, hx⟩
    obtain ⟨s, hs, hsx⟩ := List.mem_filterMap.mp hx
    obtain ⟨hs1, hs2⟩ := List.mem_filter.mp hs
    obtain ⟨hs0, hsc⟩ := List.mem_filter.mp hs1
    obtain ⟨hrdf, hrc⟩ := mem_contractData.mp hr
    by_cases hv : r.volume < s.volume
    · rw [if_pos hv] at hsx
      obtain rfl := Option.some.inj hsx
      exact ⟨r, hrdf, hrc, rfl, s, hs0, of_decide_eq_true hsc,
        of_decide_eq_true hs2, hv⟩
    · rw [if_neg hv] at hsx
      exact Option.noConfusion hsx
  · rintro ⟨r, hr, hrc, rfl, s, hs, hsc, hsd, hv⟩
    exact ⟨r, mem_contractData.mpr ⟨hr, hrc⟩,
      List.mem_filterMap.mpr ⟨s,
        List.mem_filter.mpr ⟨List.mem_filter.mpr ⟨hs, decide_eq_true hsc⟩,
          decide_eq_true hsd⟩,
        by rw [if_pos hv]⟩⟩

/-- C2: under the volume roll strategy the rollover date of a contract
is exactly the least date on which both it and the next contract have a
row and the next contract's volume strictly exceeds the current one's
(`none` exactly when no such common date exists); a segment step then
takes from the current contract precisely its not-yet-present dates up
to and including that rollover date — all of them when no roll point was
found. -/
theorem volume_roll_spec (df : List Bar) (c nc : String) (dd rd : Int) :
    (∀ d : Int,
      rollover_date df RollStrategy.volume c (some nc) dd rd = some d ↔
      IsLeast {x : Int | ∃ r ∈ df, r.contract = c ∧ r.date = x ∧
        ∃ s ∈ df, s.contract = nc ∧ s.date = x ∧ r.volume < s.volume} d) ∧
    (rollover_date df RollStrategy.volume c (some nc) dd rd = Option.none ↔
      ∀ x : Int, ¬ (∃ r ∈ df, r.contract = c ∧ r.date = x ∧
        ∃ s ∈ df, s.contract = nc ∧ s.date = x ∧ r.volume < s.volume)) ∧
    (∀ (adjust : AdjustMethod) (i : Nat) (st : GCState) (d : Int),
      st.continuous ≠ [] →
      rollover_date df RollStrategy.volume c (some nc) dd rd = some d →
      (∀ r ∈ (processContract df RollStrategy.volume adjust dd rd i c (some nc)
          st).continuous,
        r ∉ st.continuous → r.contract = c ∧ r.date ≤ d) ∧
      (∀ b ∈ df, b.contract = c → b.date ≤ d →
        b.date ∉ st.continuous.map (fun s => s.date) →
        ∃ r ∈ (processContract df RollStrategy.volume adjust dd rd i c (some nc)
          st).continuous, r.date = b.date ∧ r.contract = c)) ∧
    (∀ (adjust : AdjustMethod) (i : Nat) (st : GCState),
      st.continuous ≠ [] →
      rollover_date df RollStrategy.volume c (some nc) dd rd = Option.none →
      (∀ r ∈ (processContract df RollStrategy.volume adjust dd rd i c (some nc)
          st).continuous,
        r ∉ st.continuous → r.contract = c) ∧
      (∀ b ∈ df, b.contract = c →
        b.date ∉ st.continuous.map (fun s => s.date) →
        ∃ r ∈ (processContract df RollStrategy.volume adjust dd rd i c (some nc)
          st).continuous, r.date = b.date ∧ r.contract = c)) := by
  have hset : ∀ x : Int,
      x ∈ (contractData df c).flatMap (fun r =>
        ((df.filter (fun b => b.contract = nc)).filter (fun s => s.date = r.date)).filterMap
          (fun s => if r.volume < s.volume then some r.date else Option.none)) ↔
      x ∈ {x : Int | ∃ r ∈ df, r.contract = c ∧ r.date = x ∧
        ∃ s ∈ df, s.contract = nc ∧ s.date = x ∧ r.volume < s.volume} :=
    fun x => mem_volume_candidates
  have hempty : (contractData df c = [] ∨ df.filter (fun b => b.contract = nc) = []) →
      ∀ x : Int, ¬ x ∈ {x : Int | ∃ r ∈ df, r.contract = c ∧ r.date = x ∧
        ∃ s ∈ df, s.contract = nc ∧ s.date = x ∧ r.volume < s.volume} := by
    rintro hc x ⟨r, hr, hrc, rfl, s, hs, hsc, hsd, hv⟩
    rcases hc with hc | hc
    · have hmem : r ∈ contractData df c := mem_contractData.mpr ⟨hr, hrc⟩
      rw [hc] at hmem
      exact List.not_mem_nil r hmem
    · have hmem : s ∈ df.filter (fun b => b.contract = nc) :=
        List.mem_filter.mpr ⟨hs, decide_eq_true hsc⟩
      rw [hc] at hmem
      exact List.not_mem_nil s hmem
  have hroll : rollover_date df RollStrategy.volume c (some nc) dd rd =
      volume_roll_date (contractData df c) (df.filter (fun b => b.contract = nc)) := rfl
  refine ⟨?_, ?_, ?_, ?_⟩
  · intro d
    rw [hroll, volume_roll_date]
    by_cases hc : contractData df c = [] ∨ df.filter (fun b => b.contract = nc) = []
    · rw [if_pos hc]
      constructor
      · intro h
        exact Option.noConfusion h
      · rintro ⟨hmem, -⟩
        exact absurd hmem (hempty hc d)
    · rw [if_neg hc, series_min_isLeast]
      constructor
      · rintro ⟨h1, h2⟩
        exact ⟨(hset d).mp h1, fun x hx => h2 x ((hset x).mpr hx)⟩
      · rintro ⟨h1, h2⟩
        exact ⟨(hset d).mpr h1, fun x hx => h2 ((hset x).mp hx)⟩
  · rw [hroll, volume_roll_date]
    by_cases hc : contractData df c = [] ∨ df.filter (fun b => b.contract = nc) = []
    · rw [if_pos hc]
      exact ⟨fun _ => hempty hc, fun _ => rfl⟩
    · rw [if_neg hc, series_min_eq_none, List.eq_nil_iff_forall_not_mem]
      constructor
      · intro h x hx
        exact h x ((hset x).mpr hx)
      · intro h x hx
        exact h x ((hset x).mp hx)
  · intro adjust i st d hne hrd
    obtain ⟨f, hshape, hf⟩ := processContract_shape df RollStrategy.volume adjust dd rd i c
      (some nc) st hne
    rw [hshape, hrd]
    constructor
    · intro r hr hrn
      rcases mem_appendRows hr with hmem | hmem
      · exact absurd hmem hrn
      · obtain ⟨hmem2, hle⟩ := List.mem_filter.mp hmem
        obtain ⟨b, _, rfl⟩ := List.mem_map.mp hmem2
        exact ⟨(hf b).2, by
          have := of_decide_eq_true hle
          exact this⟩
    · intro b hb hbc hbd hbn
      refine ⟨f b, mem_appendRows_of_new (List.mem_filter.mpr
        ⟨List.mem_map_of_mem f (mem_contractData.mpr ⟨hb, hbc⟩),
          decide_eq_true (by rw [(hf b).1]; exact hbd)⟩)
        (by rw [(hf b).1]; exact hbn), (hf b).1, (hf b).2⟩
  · intro adjust i st hne hrd
    obtain ⟨f, hshape, hf⟩ := processContract_shape df RollStrategy.volume adjust dd rd i c
      (some nc) st hne
    rw [hshape, hrd]
    constructor
    · intro r hr hrn
      rcases mem_appendRows hr with hmem | hmem
      · exact absurd hmem hrn
      · obtain ⟨b, _, rfl⟩ := List.mem_map.mp hmem
        exact (hf b).2
    · intro b hb hbc hbn
      refine ⟨f b, mem_appendRows_of_new
        (List.mem_map_of_mem f (mem_contractData.mpr ⟨hb, hbc⟩))
        (by rw [(hf b).1]; exact hbn), (hf b).1, (hf b).2⟩

theorem volume_roll_spec_witness :
    rollover_date c2_df RollStrategy.volume cx1 (some cx2) 0 0 = some 2 ∧
    IsLeast {x : Int | ∃ r ∈ c2_df, r.contract = cx1 ∧ r.date = x ∧
      ∃ s ∈ c2_df, s.contract = cx2 ∧ s.date = x ∧ r.volume < s.volume} 2 ∧
    (∀ r ∈ (processContract c2_df RollStrategy.volume AdjustMethod.none 0 0 0 cx1
        (some cx2) c2_state).continuous,
      r ∉ c2_state.continuous → r.contract = cx1 ∧ r.date ≤ 2) ∧
    (∀ b ∈ c2_df, b.contract = cx1 → b.date ≤ 2 →
      b.date ∉ c2_state.continuous.map (fun s => s.date) →
      ∃ r ∈ (processContract c2_df RollStrategy.volume AdjustMethod.none 0 0 0 cx1
        (some cx2) c2_state).continuous, r.date = b.date ∧ r.contract = cx1) := by
  have h := (volume_roll_spec c2_df cx1 cx2 0 0).2.2.1 AdjustMethod.none 0 c2_state 2
    (by decide) (by decide)
  exact ⟨by decide, (volume_roll_spec c2_df cx1 cx2 0 0).1 2 |>.mp (by decide), h.1, h.2⟩

theorem filterMap_dates_nodup {g : Int → Option DailyRec}
    (hg : ∀ day rec, g day = some rec → rec.date = day) :
    ∀ {l : List Int}, l.Nodup → ((l.filterMap g).map (fun rec => rec.date)).Nodup
  | [], _ => by simp
  | x :: xs, h => by
    rw [List.filterMap_cons]
    rcases hx : g x with _ | rec
    · exact filterMap_dates_nodup hg (List.nodup_cons.mp h).2
    · rw [List.map_cons]
      refine List.nodup_cons.mpr ⟨?_, filterMap_dates_nodup hg (List.nodup_cons.mp h).2⟩
      intro hmem
      obtain ⟨rec', hrec', hdate⟩ := List.mem_map.mp hmem
      obtain ⟨day, hday, hgday⟩ := List.mem_filterMap.mp hrec'
      rw [hg day rec' hgday] at hdate
      rw [hg x rec hx] at hdate
      exact (List.nodup_cons.mp h).1 (hdate ▸ hday)

/-- C3: for a position with a resolved close date, the daily ledger has
exactly one record for each trading day in the inclusive window
`open_date ≤ d ≤ close_date` that has a settlement row for the
product — days without one are silently skipped — and each record's
`daily_pnl` is `(settlement - open_price) * quantity` for a long
position and `(open_price - settlement) * quantity` for a short one. -/
theorem daily_pnl_ledger (majors : List MajorRow) (r : ResRow) (cd : Int)
    (hcd : r.close_date = some cd) :
    (∀ d : Int,
      (∃ rec ∈ daily_records_for majors (trading_days majors) r, rec.date = d) ↔
      (r.date ≤ d ∧ d ≤ cd ∧ ∃ m ∈ majors, m.date = d ∧
        extract_product m.contract = some r.product)) ∧
    ((daily_records_for majors (trading_days majors) r).map (fun rec => rec.date)).Nodup ∧
    (∀ rec ∈ daily_records_for majors (trading_days majors) r,
      ∃ m ∈ majors, m.date = rec.date ∧ extract_product m.contract = some r.product ∧
        rec.daily_settlement = m.settlement ∧
        rec.daily_pnl = (if str_lower r.position = "long"
          then (m.settlement - r.open_price) * (r.open_quantity : ℚ)
          else (r.open_price - m.settlement) * (r.open_quantity : ℚ))) := by
  simp only [daily_records_for, hcd]
  set g : Int → Option DailyRec := fun day =>
    match (majors.filter (fun m => m.date = day ∧
        extract_product m.contract = some r.product)).map (fun m => m.settlement) with
    | [] => Option.none
    | s :: _ =>
      some ⟨r.date, day, r.product, r.position, r.open_contract, r.open_price,
        r.open_quantity, s,
        if str_lower r.position = "long"
        then (s - r.open_price) * (r.open_quantity : ℚ)
        else (r.open_price - s) * (r.open_quantity : ℚ)⟩ with hgdef
  have hg1 : ∀ day rec, g day = some rec → rec.date = day := by
    intro day rec h
    simp only [hgdef] at h
    rcases hf : (majors.filter (fun m => m.date = day ∧
        extract_product m.contract = some r.product)).map (fun m => m.settlement) with _ | ⟨s, tl⟩
    · rw [hf] at h; exact Option.noConfusion h
    · rw [hf] at h
      obtain rfl := (Option.some.inj h).symm
      rfl
  have hg2 : ∀ day rec, g day = some rec →
      ∃ m ∈ majors, m.date = day ∧ extract_product m.contract = some r.product ∧
        rec.daily_settlement = m.settlement ∧
        rec.daily_pnl = (if str_lower r.position = "long"
          then (m.settlement - r.open_price) * (r.open_quantity : ℚ)
          else (r.open_price - m.settlement) * (r.open_quantity : ℚ)) := by
    intro day rec h
    simp only [hgdef] at h
    rcases hf : majors.filter (fun m => m.date = day ∧
        extract_product m.contract = some r.product) with _ | ⟨m, rest⟩
    · rw [hf, List.map_nil] at h; exact Option.noConfusion h
    · rw [hf, List.map_cons] at h
      obtain rfl := (Option.some.inj h).symm
      have hm : m ∈ majors.filter (fun m => m.date = day ∧
          extract_product m.contract = some r.product) := by
        rw [hf]; exact List.mem_cons_self _ _
      obtain ⟨hmm, hmp⟩ := List.mem_filter.mp hm
      obtain ⟨hmd, hmpr⟩ := of_decide_eq_true hmp
      exact ⟨m, hmm, hmd, hmpr, rfl, rfl⟩
  have hg3 : ∀ day, (∃ m ∈ majors, m.date = day ∧
      extract_product m.contract = some r.product) → ∃ rec, g day = some rec := by
    intro day hm
    obtain ⟨m, hmm, hmd, hmp⟩ := hm
    simp only [hgdef]
    rcases hf : majors.filter (fun m => m.date = day ∧
        extract_product m.contract = some r.product) with _ | ⟨m0, rest⟩
    · exfalso
      have : m ∈ majors.filter (fun m => m.date = day ∧
          extract_product m.contract = some r.product) :=
        List.mem_filter.mpr ⟨hmm, decide_eq_true ⟨hmd, hmp⟩⟩
      rw [hf] at this
      exact List.not_mem_nil m this
    · rw [hf, List.map_cons]
      exact ⟨_, rfl⟩
  refine ⟨?_, ?_, ?_⟩
  · intro d
    constructor
    · rintro ⟨rec, hrec, rfl⟩
      obtain ⟨day, hday, hgday⟩ := List.mem_filterMap.mp hrec
      obtain ⟨hdtd, hdp⟩ := List.mem_filter.mp hday
      obtain ⟨h1, h2⟩ := of_decide_eq_true hdp
      obtain ⟨m, hmm, hmd, hmp, -, -⟩ := hg2 day rec hgday
      rw [hg1 day rec hgday]
      exact ⟨h1, h2, m, hmm, hmd, hmp⟩
    · rintro ⟨h1, h2, m, hmm, hmd, hmp⟩
      obtain ⟨rec, hrec⟩ := hg3 d ⟨m, hmm, hmd, hmp⟩
      refine ⟨rec, List.mem_filterMap.mpr ⟨d, ?_, hrec⟩, hg1 d rec hrec⟩
      exact List.mem_filter.mpr ⟨mem_trading_days.mpr ⟨m, hmm, hmd⟩,
        decide_eq_true ⟨h1, h2⟩⟩
  · exact filterMap_dates_nodup hg1 ((List.filter_sublist _).nodup (trading_days_nodup majors))
  · intro rec hrec
    obtain ⟨day, hday, hgday⟩ := List.mem_filterMap.mp hrec
    obtain ⟨m, hmm, hmd, hmp, hs, hp⟩ := hg2 day rec hgday
    exact ⟨m, hmm, by rw [hg1 day rec hgday]; exact hmd, hmp, hs, hp⟩

theorem daily_pnl_ledger_witness :
    c3_row.close_date = some 3 ∧
    ((∀ d : Int,
      (∃ rec ∈ daily_records_for c3_majors (trading_days c3_majors) c3_row, rec.date = d) ↔
      (c3_row.date ≤ d ∧ d ≤ 3 ∧ ∃ m ∈ c3_majors, m.date = d ∧
        extract_product m.contract = some c3_row.product)) ∧
    ((daily_records_for c3_majors (trading_days c3_majors) c3_row).map
      (fun rec => rec.date)).Nodup ∧
    (∀ rec ∈ daily_records_for c3_majors (trading_days c3_majors) c3_row,
      ∃ m ∈ c3_majors, m.date = rec.date ∧
        extract_product m.contract = some c3_row.product ∧
        rec.daily_settlement = m.settlement ∧
        rec.daily_pnl = (if str_lower c3_row.position = "long"
          then (m.settlement - c3_row.open_price) * (c3_row.open_quantity : ℚ)
          else (c3_row.open_price - m.settlement) * (c3_row.open_quantity : ℚ)))) :=
  ⟨rfl, daily_pnl_ledger c3_majors c3_row 3 rfl⟩

/-! ### Date uniqueness invariant -/
theorem pairs_nodup_filter :
    ∀ {df : List Bar},
      (df.map (fun b => (b.date, b.contract))).Nodup → ∀ c : String,
      ((df.filter (fun b => b.contract = c)).map (fun b => b.date)).Nodup
  | [], _, _ => by simp
  | b :: t, h, c => by
    rw [List.map_cons, List.nodup_cons] at h
    rw [List.filter_cons]
    by_cases hbc : b.contract = c
    · rw [if_pos (decide_eq_true hbc), List.map_cons, List.nodup_cons]
      refine ⟨?_, pairs_nodup_filter h.2 c⟩
      intro hmem
      obtain ⟨b', hb', hdate⟩ := List.mem_map.mp hmem
      obtain ⟨hb't, hb'c⟩ := List.mem_filter.mp hb'
      refine h.1 (List.mem_map.mpr ⟨b', hb't, ?_⟩)
      rw [hdate, of_decide_eq_true hb'c, hbc]
    · rw [if_neg (by simpa using hbc)]
      exact pairs_nodup_filter h.2 c

theorem contractData_dates_nodup {df : List Bar}
    (h : (df.map (fun b => (b.date, b.contract))).Nodup) (c : String) :
    ((contractData df c).map (fun b => b.date)).Nodup :=
  (((List.perm_insertionSort barLe _).map (fun b => b.date)).nodup_iff).mpr
    (pairs_nodup_filter h c)

theorem segment_dates_sublist {roll : Option Int} {l : List Bar} {f : Bar → ContRow}
    (hf : ∀ b : Bar, (f b).date = b.date) :
    ((rollover_filter roll (l.map f)).map (fun r => r.date)).Sublist
      (l.map (fun b => b.date)) := by
  have hmm : (l.map f).map (fun r => r.date) = l.map (fun b => b.date) := by
    rw [List.map_map]
    exact List.map_congr_left (fun b _ => hf b)
  have hsub : (rollover_filter roll (l.map f)).Sublist (l.map f) := by
    rcases roll with _ | d
    · exact List.Sublist.refl _
    · exact List.filter_sublist _
  exact hmm ▸ hsub.map (fun r => r.date)

theorem appendRows_dates_nodup {cont rows : List ContRow}
    (hc : (cont.map (fun r => r.date)).Nodup) (hr : (rows.map (fun r => r.date)).Nodup) :
    ((appendRows cont rows).map (fun r => r.date)).Nodup := by
  rw [appendRows]
  by_cases hnil : cont = []
  · rw [if_pos hnil]; exact hr
  · rw [if_neg hnil, List.map_append]
    refine List.Nodup.append hc
      (((List.filter_sublist rows).map (fun r => r.date)).nodup hr) ?_
    intro d hdc hdr
    obtain ⟨r', hr', hrd⟩ := List.mem_map.mp hdr
    have hq := of_decide_eq_true (List.mem_filter.mp hr').2
    exact hq (hrd ▸ hdc)

theorem processContract_dates_nodup {df : List Bar} {strat : RollStrategy}
    {adjust : AdjustMethod} {dd rd : Int} {i : Nat} {c : String} {next : Option String}
    {st : GCState}
    (hcd : ((contractData df c).map (fun b => b.date)).Nodup)
    (hst : (st.continuous.map (fun r => r.date)).Nodup) :
    (((processContract df strat adjust dd rd i c next st).continuous).map
      (fun r => r.date)).Nodup := by
  by_cases hne : st.continuous = []
  · by_cases hnil : contractData df c = []
    · rw [processContract, if_pos hnil]; exact hst
    · rw [processContract, if_neg hnil]
      by_cases hbr : 0 < i ∧ adjust ∈ [AdjustMethod.backward, AdjustMethod.forward,
          AdjustMethod.ratio, AdjustMethod.difference]
      · rw [if_pos hbr, if_pos hne]; exact hst
      · rw [if_neg hbr]
        show ((appendRows st.continuous (raw_segment df strat dd rd c next)).map
          (fun r => r.date)).Nodup
        rw [hne, appendRows_nil]
        exact (segment_dates_sublist (fun b => rfl)).nodup hcd
  · obtain ⟨f, hshape, hf⟩ := processContract_shape df strat adjust dd rd i c next st hne
    rw [hshape]
    exact appendRows_dates_nodup hst
      ((segment_dates_sublist (fun b => (hf b).1)).nodup hcd)

theorem processContracts_dates_nodup {df : List Bar} {strat : RollStrategy}
    {adjust : AdjustMethod} {dd rd : Int}
    (h : (df.map (fun b => (b.date, b.contract))).Nodup) :
    ∀ (cs : List String) (i : Nat) (st : GCState),
      (st.continuous.map (fun r => r.date)).Nodup →
      (((processContracts df strat adjust dd rd i cs st).continuous).map
        (fun r => r.date)).Nodup
  | [], _, _, hst => hst
  | c :: rest, i, _, hst =>
    processContracts_dates_nodup h rest (i + 1) _
      (processContract_dates_nodup (contractData_dates_nodup h c) hst)

theorem appendRows_decomp (cont rows : List ContRow) :
    ∃ t : List ContRow, appendRows cont rows = cont ++ t ∧
      ∀ r ∈ t, ∀ s ∈ cont, r.date ≠ s.date := by
  rw [appendRows]
  by_cases hnil : cont = []
  · rw [if_pos hnil, hnil]
    exact ⟨rows, rfl, fun r _ s hs => absurd hs (List.not_mem_nil s)⟩
  · rw [if_neg hnil]
    refine ⟨_, rfl, ?_⟩
    intro r hr s hs heq
    exact of_decide_eq_true (List.mem_filter.mp hr).2
      (List.mem_map.mpr ⟨s, hs, heq.symm⟩)

theorem processContract_first_writer_wins (df : List Bar) (strat : RollStrategy)
    (adjust : AdjustMethod) (dd rd : Int) (i : Nat) (c : String) (next : Option String)
    (st : GCState) :
    ∃ t : List ContRow,
      (processContract df strat adjust dd rd i c next st).continuous =
        st.continuous ++ t ∧
      ∀ r ∈ t, ∀ s ∈ st.continuous, r.date ≠ s.date := by
  by_cases hnil : contractData df c = []
  · rw [processContract, if_pos hnil]
    exact ⟨[], (List.append_nil _).symm, fun r hr => absurd hr (List.not_mem_nil r)⟩
  · rw [processContract, if_neg hnil]
    by_cases hbr : 0 < i ∧ adjust ∈ [AdjustMethod.backward, AdjustMethod.forward,
        AdjustMethod.ratio, AdjustMethod.difference]
    · rw [if_pos hbr]
      by_cases hne : st.continuous = []
      · rw [if_pos hne]
        exact ⟨[], (List.append_nil _).symm, fun r hr => absurd hr (List.not_mem_nil r)⟩
      · rw [if_neg hne]
        exact appendRows_decomp _ _
    · rw [if_neg hbr]
      exact appendRows_decomp _ _

/-- C1: under the data-model invariant that `(date, contract)` pairs are
unique, every continuous series has strictly increasing dates (hence no
duplicates), and each loop iteration only ever appends rows whose dates
are absent from the frame built so far — the row already present for a
date is kept and the later contract's row for that date is never added. -/
theorem continuous_dates_strictly_increasing (df : List Bar) (strat : RollStrategy)
    (adjust : AdjustMethod) (contract_months : Option (List Nat)) (dd rd : Int)
    (h : (df.map (fun b => (b.date, b.contract))).Nodup) :
    List.Pairwise (fun a b : Int => a < b)
      ((generate_continuous df strat adjust contract_months dd rd).map
        (fun r => r.date)) ∧
    (∀ (i : Nat) (c : String) (next : Option String) (st : GCState),
      ∃ t : List ContRow,
        (processContract df strat adjust dd rd i c next st).continuous =
          st.continuous ++ t ∧
        ∀ r ∈ t, ∀ s ∈ st.continuous, r.date ≠ s.date) := by
  constructor
  · have key : ∀ cs : List String,
        List.Pairwise (fun a b : Int => a < b)
          ((List.insertionSort rowLe
            (processContracts df strat adjust dd rd 0 cs ⟨[], 0, 1⟩).continuous).map
            (fun r => r.date)) := by
      intro cs
      have hnodup : (((processContracts df strat adjust dd rd 0 cs
          ⟨[], 0, 1⟩).continuous).map (fun r => r.date)).Nodup :=
        processContracts_dates_nodup h cs 0 ⟨[], 0, 1⟩ (by simp)
      have hsorted : List.Pairwise (fun a b : Int => a ≤ b)
          ((List.insertionSort rowLe (processContracts df strat adjust dd rd 0 cs
            ⟨[], 0, 1⟩).continuous).map (fun r => r.date)) :=
        List.Pairwise.map _ (fun a b hab => hab)
          (List.sorted_insertionSort rowLe _)
      have hnd : ((List.insertionSort rowLe (processContracts df strat adjust dd rd 0 cs
          ⟨[], 0, 1⟩).continuous).map (fun r => r.date)).Nodup :=
        (((List.perm_insertionSort rowLe _).map (fun r => r.date)).nodup_iff).mpr hnodup
      exact (hsorted.and hnd).imp (fun hab => lt_of_le_of_ne hab.1 hab.2)
    simp only [generate_continuous]
    exact key _
  · exact processContract_first_writer_wins df strat adjust dd rd

theorem continuous_dates_strictly_increasing_witness :
    (c1_df.map (fun b => (b.date, b.contract))).Nodup ∧
    (List.Pairwise (fun a b : Int => a < b)
      ((generate_continuous c1_df RollStrategy.volume AdjustMethod.difference Option.none
        0 0).map (fun r => r.date)) ∧
    (∀ (i : Nat) (c : String) (next : Option String) (st : GCState),
      ∃ t : List ContRow,
        (processContract c1_df RollStrategy.volume AdjustMethod.difference 0 0 i c next
          st).continuous = st.continuous ++ t ∧
        ∀ r ∈ t, ∀ s ∈ st.continuous, r.date ≠ s.date)) :=
  ⟨by decide, continuous_dates_strictly_increasing c1_df RollStrategy.volume
    AdjustMethod.difference Option.none 0 0 (by decide)⟩
